import Mathlib

/-!
Verification of the inheritance-graph engine of `liskov2.py`.

The Python program builds an `InheritanceGraph` from class declarations,
computes the transitive subclass relation by recursive traversal
(`is_subclass`), enumerates all ancestor/descendant pairs
(`get_all_pairs`), groups those pairs by owning module and renders one
report per module pair (`write_class_pairs`).

Python dictionaries are modelled as association lists with insertion
order (`dictInsert` keeps the position of an existing key, as CPython
dicts do); Python sets are modelled as lists, with membership as the
only observable.  The recursion of `is_subclass` carries no visited
set, so it need not terminate on cyclic graphs; it is therefore
modelled with an explicit fuel parameter counting recursion depth,
`none` meaning that the call has not returned within that depth (in
CPython: the query either has not returned yet or has died of
`RecursionError`).
-/

/-- Lookup in a Python dict modelled as an association list
(`m[k]` / `k in m`). -/
def dictGet {κ α : Type} [DecidableEq κ] : List (κ × α) → κ → Option α
  | [], _ => none
  | (k', v) :: rest, k => if k' = k then some v else dictGet rest k

/-- Python dict assignment `m[k] = v`: replaces the value in place if the
key exists (keeping its position), otherwise appends the new entry. -/
def dictInsert {κ α : Type} [DecidableEq κ] (k : κ) (v : α) : List (κ × α) → List (κ × α)
  | [] => [(k, v)]
  | (k', v') :: rest => if k' = k then (k, v) :: rest else (k', v') :: dictInsert k v rest

/-- Iteration order of a Python dict: its keys in insertion order. -/
def dictKeys {κ α : Type} (m : List (κ × α)) : List κ :=
  m.map Prod.fst

/-- `InheritanceGraph.__init__`: the four dictionaries of the graph. -/
structure InheritanceGraph where
  direct_parents : List (String × List String)
  class_source : List (String × String)
  class_modules : List (String × String)
  module_contents : List (String × String)

/-- The freshly constructed graph: all four dicts empty. -/
def newGraph : InheritanceGraph := ⟨[], [], [], []⟩

/-- `InheritanceGraph.add_class`.  The Python code stores
`set(parent_names)`; we keep the list itself, whose membership is the
only property the queries observe. -/
def add_class (g : InheritanceGraph) (class_name : String) (parent_names : List String)
    (source_code : String) (module_path : String) (module_content : String) :
    InheritanceGraph :=
  { direct_parents := dictInsert class_name parent_names g.direct_parents
    class_source := dictInsert class_name source_code g.class_source
    class_modules := dictInsert class_name module_path g.class_modules
    module_contents := dictInsert module_path module_content g.module_contents }

/-- The short-circuit `any(f(p) for p in ps)` of `is_subclass`, where each
`f p` may itself fail to return (`none`). -/
def anyCheck (f : String → Option Bool) : List String → Option Bool
  | [] => some false
  | p :: rest =>
    match f p with
    | none => none
    | some true => some true
    | some false => anyCheck f rest

/-- `InheritanceGraph.is_subclass`, with fuel bounding the depth of the
recursion (the Python function recurses with no visited set). -/
def is_subclass (g : InheritanceGraph) : Nat → String → String → Option Bool
  | 0, _, _ => none
  | fuel + 1, potential_child, potential_parent =>
    if potential_child = potential_parent then some true
    else
      match dictGet g.direct_parents potential_child with
      | none => some false
      | some direct_parents =>
        if potential_parent ∈ direct_parents then some true
        else anyCheck (fun parent => is_subclass g fuel parent potential_parent) direct_parents

/-- The spec's `is_ancestor(candidate_ancestor, name)` is the code's
`is_subclass(potential_child = name, potential_parent = candidate_ancestor)`
(see `get_all_pairs`, which emits `(potential_parent, child)` as an
(ancestor, descendant) pair). -/
def is_ancestor (g : InheritanceGraph) (fuel : Nat) (candidate_ancestor name : String) :
    Option Bool :=
  is_subclass g fuel name candidate_ancestor

/-- The ancestor relation the spec describes, as a least fixed point:
`a` is an ancestor of `name` iff `a = name` or `a` is an ancestor of
some direct parent of `name`. -/
inductive IsAncestor (g : InheritanceGraph) (a : String) : String → Prop
  | refl : IsAncestor g a a
  | step (name : String) (ps : List String) (p : String) :
      dictGet g.direct_parents name = some ps → p ∈ ps →
      IsAncestor g a p → IsAncestor g a name

/-- The cyclic two-node graph of the spec's termination scenario:
`A`'s parent is `B` and `B`'s parent is `A`. -/
def cycleGraph : InheritanceGraph :=
  add_class
    (add_class newGraph "A" ["B"] "class A(B): pass" "m.py" "class A(B): pass\nclass B(A): pass\n")
    "B" ["A"] "class B(A): pass" "m.py" "class A(B): pass\nclass B(A): pass\n"

/-- A graph on which the unconditional C2 claim fails: `N`'s parents are
`D` then `P`, `D` loops on itself, and `P`'s parent is `A`.  `A` is an
ancestor of a direct parent of `N`, but the query `is_ancestor(A, N)`
dives into the `D` branch first and never returns. -/
def branchGraph : InheritanceGraph :=
  add_class
    (add_class
      (add_class newGraph "N" ["D", "P"] "class N(D, P): pass" "m.py" "src")
      "D" ["D"] "class D(D): pass" "m.py" "src")
    "P" ["A"] "class P(A): pass" "m.py" "src"

/-- The straight chain `A ← B ← C` used to witness C8. -/
def chainGraph : InheritanceGraph :=
  add_class
    (add_class newGraph "B" ["A"] "class B(A): pass" "m.py" "src")
    "C" ["B"] "class C(B): pass" "m.py" "src"

/-- A graph on which the unconditional C8 claim fails: `A` is a direct
parent of `B`, `B` a direct parent of `C`, but `C`'s parent set lists the
self-looping `D` first, so `is_ancestor(A, C)` never returns. -/
def branchChainGraph : InheritanceGraph :=
  add_class
    (add_class
      (add_class newGraph "C" ["D", "B"] "class C(D, B): pass" "m.py" "src")
      "D" ["D"] "class D(D): pass" "m.py" "src")
    "B" ["A"] "class B(A): pass" "m.py" "src"

/-- Inner loop of `get_all_pairs` for one `child`: iterate the registered
names, appending `(potential_parent, child)` whenever
`child != potential_parent and is_subclass(child, potential_parent)`.
Propagates `none` when some reachability check never returns. -/
def pairsForChild (g : InheritanceGraph) (fuel : Nat) (child : String) :
    List String → Option (List (String × String))
  | [] => some []
  | pp :: rest =>
    if child = pp then pairsForChild g fuel child rest
    else
      match is_subclass g fuel child pp with
      | none => none
      | some true =>
        match pairsForChild g fuel child rest with
        | none => none
        | some ps => some ((pp, child) :: ps)
      | some false => pairsForChild g fuel child rest

/-- Outer loop of `get_all_pairs` over the registered names as children. -/
def allPairsAux (g : InheritanceGraph) (fuel : Nat) : List String → Option (List (String × String))
  | [] => some []
  | c :: rest =>
    match pairsForChild g fuel c (dictKeys g.direct_parents), allPairsAux g fuel rest with
    | some ps, some qs => some (ps ++ qs)
    | _, _ => none

/-- `InheritanceGraph.get_all_pairs`. -/
def get_all_pairs (g : InheritanceGraph) (fuel : Nat) : Option (List (String × String)) :=
  allPairsAux g fuel (dictKeys g.direct_parents)

/-- The qualification test of one inner-loop step, as a total function of
an answer that did return. -/
def pairEmit (g : InheritanceGraph) (fuel : Nat) (child pp : String) : Option (String × String) :=
  if child = pp then none
  else if is_subclass g fuel child pp = some true then some (pp, child) else none

/-- A graph on which `get_all_pairs` never returns: the self-looping `D`
is registered first, so the very first reachability check of the
enumeration (`is_subclass("D", "N")`) recurses forever. -/
def divergingGraph : InheritanceGraph :=
  add_class
    (add_class
      (add_class newGraph "D" ["D"] "class D(D): pass" "m.py" "src")
      "N" ["D", "P"] "class N(D, P): pass" "m.py" "src")
    "P" ["A"] "class P(A): pass" "m.py" "src"

/-- The shapes of base-class expressions relevant to `visit_ClassDef`:
simple names (`ast.Name`), dotted attribute accesses (`ast.Attribute`),
subscripts such as `Generic[T]` (`ast.Subscript`), and anything else. -/
inductive PyExpr where
  | name (id : String)
  | attributeExpr (value : PyExpr) (attr : String)
  | subscript (value : PyExpr) (index : PyExpr)
  | otherExpr
deriving DecidableEq

/-- A Python statement as the visitor sees it: a `ClassDef` with its base
expressions and body, or any other statement (whose children
`generic_visit` still walks). -/
inductive PyStmt where
  | classDef (name : String) (bases : List PyExpr) (body : List PyStmt)
  | otherStmt (children : List PyStmt)

/-- `ClassInfoExtractor._get_full_attr_name` on an `Attribute` node with
the given `value` and `attr`: dotted name for `Name`/`Attribute` values,
bare `attr` for anything else. -/
def get_full_attr_name : PyExpr → String → String
  | PyExpr.name id, attr => id ++ "." ++ attr
  | PyExpr.attributeExpr v a, attr => get_full_attr_name v a ++ "." ++ attr
  | PyExpr.subscript _ _, attr => attr
  | PyExpr.otherExpr, attr => attr

/-- The base-name loop of `visit_ClassDef`: `ast.Name` bases contribute
their id, `ast.Attribute` bases their dotted name, every other base
expression is skipped. -/
def extract_base_names : List PyExpr → List String
  | [] => []
  | b :: rest =>
    match b with
    | PyExpr.name id => id :: extract_base_names rest
    | PyExpr.attributeExpr v a => get_full_attr_name v a :: extract_base_names rest
    | PyExpr.subscript _ _ => extract_base_names rest
    | PyExpr.otherExpr => extract_base_names rest

/-- `ClassInfoExtractor._get_full_class_name`.  The Python function walks
`node.parent` backlinks while `hasattr(current, 'parent')`, but nothing in
the program ever sets a `parent` attribute on AST nodes and `ast.parse`
does not create one, so the loop body never runs and the function returns
the bare `node.name`. -/
def get_full_class_name (name : String) : String := name

/-- The fully-qualified name the spec prescribes for a nested declaration:
the dot-joined chain of enclosing class names followed by its own name. -/
def specFullyQualifiedName (enclosing : List String) (name : String) : String :=
  String.intercalate "." (enclosing ++ [name])

/-- Modelled from the spec: `astor.to_source` is an external collaborator
that deterministically renders an AST node back to source text.  Nothing
under verification ever reads the stored `class_source`, so the render is
modelled as a fixed function of the node. -/
def astor_to_source (_node : PyStmt) : String := ""

/-- `ClassInfoExtractor.__init__`: the graph plus the current-module
state set by `process_file`. -/
structure ClassInfoExtractor where
  inheritance_graph : InheritanceGraph
  current_module_path : String
  current_module_content : String

mutual

/-- `ast.NodeVisitor.visit` on one statement: a `ClassDef` is registered
(under `_get_full_class_name`, i.e. its bare name) and then its body is
walked (`generic_visit`); any other statement only has its children
walked. -/
def visitStmt (ex : ClassInfoExtractor) : PyStmt → ClassInfoExtractor
  | PyStmt.classDef name bases body =>
    let full_class_name := get_full_class_name name
    let ex' := { ex with
      inheritance_graph :=
        add_class ex.inheritance_graph full_class_name (extract_base_names bases)
          (astor_to_source (PyStmt.classDef name bases body))
          ex.current_module_path ex.current_module_content }
    visitStmts ex' body
  | PyStmt.otherStmt children => visitStmts ex children

/-- Sequential visit of a list of statements. -/
def visitStmts (ex : ClassInfoExtractor) : List PyStmt → ClassInfoExtractor
  | [] => ex
  | s :: rest => visitStmts (visitStmt ex s) rest

end

/-- One source unit: its path, its full text, and the outcome of handing
the text to the external parser (`ast.parse`), carried as data. -/
structure SourceUnit where
  path : String
  content : String
  parsed : Except String (List PyStmt)

/-- `process_file`: a unit that parses installs its text and path on the
extractor and is visited; a unit whose parse raises leaves the extractor
untouched and logs `Error processing {path}: {message}`. -/
def process_file (u : SourceUnit) (ex : ClassInfoExtractor) (log : List String) :
    ClassInfoExtractor × List String :=
  match u.parsed with
  | Except.error e => (ex, log ++ ["Error processing " ++ u.path ++ ": " ++ e])
  | Except.ok tree =>
    (visitStmts
      { ex with current_module_content := u.content, current_module_path := u.path } tree,
      log)

/-- The fold of `process_codebase` over the discovered units. -/
def processUnits (acc : ClassInfoExtractor × List String) :
    List SourceUnit → ClassInfoExtractor × List String
  | [] => acc
  | u :: rest => processUnits (process_file u acc.1 acc.2) rest

/-- `process_codebase`: process every discovered unit, starting from a
fresh extractor, returning the extractor and the printed error lines. -/
def process_codebase (units : List SourceUnit) : ClassInfoExtractor × List String :=
  processUnits (⟨newGraph, "", ""⟩, []) units

/-- The scenario of C3: `class Inner` nested inside `class Outer`, in one
source unit. -/
def outerInnerUnit : SourceUnit :=
  { path := "outer.py"
    content := "class Outer:\n    class Inner:\n        pass\n"
    parsed := Except.ok [PyStmt.classDef "Outer" [] [PyStmt.classDef "Inner" [] []]] }

/-- Python's string comparison: lexicographic on code points. -/
def pyCharListLe : List Char → List Char → Bool
  | [], _ => true
  | _ :: _, [] => false
  | c :: cs, d :: ds => if c < d then true else if d < c then false else pyCharListLe cs ds

/-- `a <= b` on Python strings. -/
def pyStrLe (a b : String) : Bool := pyCharListLe a.data b.data

/-- The ordering relation used by Python's `sorted` on strings. -/
def pyStrLeRel (a b : String) : Prop := pyStrLe a b = true

instance : DecidableRel pyStrLeRel := fun a b => by
  unfold pyStrLeRel
  infer_instance

/-- Python's `sorted` on a list of strings (an ascending stable sort; the
inputs it is applied to carry no duplicates, so any correct ascending
sort computes the same list). -/
def pySorted (l : List String) : List String :=
  List.insertionSort pyStrLeRel l

/-- `s.add(x)` on a Python set modelled as a list: append if absent. -/
def setAdd (s : List String) (x : String) : List String :=
  if x ∈ s then s else s ++ [x]

/-- The accumulation loop of `get_classes_in_module`: for each
`(superclass, subclass)` pair add `superclass` when it lives in
`module_path` and the superclass role is requested, else add `subclass`
when it lives in `module_path` and the subclass role is requested.
A lookup of an unregistered name raises (`none`). -/
def classesInModuleAux (g : InheritanceGraph) (module_path : String) (as_super : Bool) :
    List (String × String) → List String → Option (List String)
  | [], acc => some acc
  | (superclass, subclass) :: rest, acc =>
    match dictGet g.class_modules superclass with
    | none => none
    | some m1 =>
      if m1 = module_path ∧ as_super = true then
        classesInModuleAux g module_path as_super rest (setAdd acc superclass)
      else
        match dictGet g.class_modules subclass with
        | none => none
        | some m2 =>
          if m2 = module_path ∧ as_super = false then
            classesInModuleAux g module_path as_super rest (setAdd acc subclass)
          else classesInModuleAux g module_path as_super rest acc

/-- `write_class_pairs.get_classes_in_module`. -/
def get_classes_in_module (g : InheritanceGraph) (module_path : String) (as_super : Bool)
    (pairs : List (String × String)) : Option (List String) :=
  (classesInModuleAux g module_path as_super pairs []).map pySorted

/-- The `involved_classes` set of `get_other_classes_in_module`: every
superclass and subclass occurring in the group's pairs. -/
def involved_classes (pairs : List (String × String)) : List String :=
  pairs.foldl (fun acc p => setAdd (setAdd acc p.1) p.2) []

/-- `write_class_pairs.get_other_classes_in_module`: the registered
classes of the module that participate in none of the group's pairs,
sorted. -/
def get_other_classes_in_module (g : InheritanceGraph) (module_path : String)
    (pairs : List (String × String)) : List String :=
  pySorted (g.class_modules.filterMap (fun e =>
    if e.2 = module_path ∧ e.1 ∉ involved_classes pairs then some e.1 else none))

/-- `module_groups[module_key].append(pair)`, creating the key's entry at
the end on first use (Python dict-of-lists insertion semantics). -/
def addToGroup (k : String × String) (p : String × String) :
    List ((String × String) × List (String × String)) →
      List ((String × String) × List (String × String))
  | [] => [(k, [p])]
  | (k', ps) :: rest =>
    if k' = k then (k, ps ++ [p]) :: rest else (k', ps) :: addToGroup k p rest

/-- The `(super_module, sub_module)` key of one pair; `none` when one of
the two names was never registered (a `KeyError` in Python). -/
def pairKey (g : InheritanceGraph) (p : String × String) : Option (String × String) :=
  match dictGet g.class_modules p.1, dictGet g.class_modules p.2 with
  | some m1, some m2 => some (m1, m2)
  | _, _ => none

/-- The grouping loop of `write_class_pairs`. -/
def groupPairsAux (g : InheritanceGraph) :
    List (String × String) → List ((String × String) × List (String × String)) →
      Option (List ((String × String) × List (String × String)))
  | [], acc => some acc
  | p :: rest, acc =>
    match pairKey g p with
    | none => none
    | some k => groupPairsAux g rest (addToGroup k p acc)

/-- Group the enumerated pairs by their `(super_module, sub_module)` key,
in enumeration order. -/
def group_pairs (g : InheritanceGraph) (pairs : List (String × String)) :
    Option (List ((String × String) × List (String × String))) :=
  groupPairsAux g pairs []

/-- One `# - name` line per class, as written under the role headers. -/
def classList (names : List String) : String :=
  String.join (names.map (fun n => "# - " ++ n ++ "\n"))

/-- The `"\n\n" + "="*80 + "\n\n"` separator. -/
def sepLine : String := "\n\n" ++ String.mk (List.replicate 80 '=') ++ "\n\n"

/-- The text written for one module-pair group: header of relationships,
per-module role lists, then the full module contents.  `none` when a
dict lookup inside raises. -/
def render_report (g : InheritanceGraph) (super_module sub_module : String)
    (pairs : List (String × String)) : Option String :=
  match get_classes_in_module g super_module true pairs with
  | none => none
  | some supers =>
    let header := "# Inheritance relationships in this file:\n"
      ++ String.join (pairs.map (fun p => "# - " ++ p.1 ++ " -> " ++ p.2 ++ "\n")) ++ "\n"
      ++ "# Classes in " ++ super_module ++ ":\n" ++ "# Superclasses:\n" ++ classList supers
    if super_module = sub_module then
      match get_classes_in_module g super_module false pairs with
      | none => none
      | some subs =>
        match dictGet g.module_contents super_module with
        | none => none
        | some content1 =>
          some (header ++ "# Subclasses:\n" ++ classList subs
            ++ "# Other classes:\n"
            ++ classList (get_other_classes_in_module g super_module pairs) ++ "\n"
            ++ "# Full contents of " ++ super_module ++ ":\n" ++ content1 ++ sepLine)
    else
      match get_classes_in_module g sub_module false pairs,
          dictGet g.module_contents super_module, dictGet g.module_contents sub_module with
      | some subs, some content1, some content2 =>
        some (header
          ++ "# Other classes:\n"
          ++ classList (get_other_classes_in_module g super_module pairs) ++ "\n"
          ++ "# Classes in " ++ sub_module ++ ":\n" ++ "# Subclasses:\n" ++ classList subs
          ++ "# Other classes:\n"
          ++ classList (get_other_classes_in_module g sub_module pairs) ++ "\n"
          ++ "# Full contents of " ++ super_module ++ ":\n" ++ content1
          ++ sepLine
          ++ "# Full contents of " ++ sub_module ++ ":\n" ++ content2)
      | _, _, _ => none

/-- Write one `{first_ancestor}.{first_descendant}.txt` file per group, in
group order.  Returns the list of `(file name, file content)` writes. -/
def writeGroups (g : InheritanceGraph) :
    List ((String × String) × List (String × String)) → Option (List (String × String))
  | [] => some []
  | ((super_module, sub_module), ps) :: rest =>
    match ps with
    | [] => none
    | first :: _ =>
      match render_report g super_module sub_module ps with
      | none => none
      | some content =>
        match writeGroups g rest with
        | none => none
        | some out => some ((first.1 ++ "." ++ first.2 ++ ".txt", content) :: out)

/-- `write_class_pairs`: enumerate, group, render. -/
def write_class_pairs (g : InheritanceGraph) (fuel : Nat) :
    Option (List (String × String)) :=
  match get_all_pairs g fuel with
  | none => none
  | some pairs =>
    match group_pairs g pairs with
    | none => none
    | some groups => writeGroups g groups

/-- `chainGraph` with one extra uninvolved class `Z` in the same module:
the witness scenario for the report-plan claims. -/
def reportGraph : InheritanceGraph :=
  add_class chainGraph "Z" [] "class Z: pass" "m.py" "src"

/-- A unit whose text does not parse, used to witness C9. -/
def badUnit : SourceUnit :=
  { path := "bad.py"
    content := "def (:\n"
    parsed := Except.error "invalid syntax" }

/-- `orDefault o d`: `o` unless it is `none`, then `d` (the value an
association-list lookup takes after further insertions). -/
def orDefault {α : Type} (o d : Option α) : Option α :=
  match o with
  | some w => some w
  | none => d

/-- The value the last insertion for key `q` in an operation list will
give it, if any (later operations win). -/
def opsLookup {κ α : Type} [DecidableEq κ] (q : κ) : List (κ × α) → Option α
  | [] => none
  | (k, v) :: rest =>
    match opsLookup q rest with
    | some w => some w
    | none => if k = q then some v else none

/-- Insert-if-absent, the action one `dictInsert` has on the key list. -/
def insAbsent {κ : Type} [DecidableEq κ] (ks : List κ) (k : κ) : List κ :=
  if k ∈ ks then ks else ks ++ [k]

/-- First-occurrence de-duplication: the key order of a dict built by
repeated insertion. -/
def dedupF {κ : Type} [DecidableEq κ] : List κ → List κ
  | [] => []
  | k :: rest => k :: dedupF (rest.filter (fun x => x ≠ k))
termination_by l => l.length
decreasing_by
  exact Nat.lt_succ_of_le (List.length_filter_le _ _)

def pyCharListLe_total (a b : List Char) :
    pyCharListLe a b = true ∨ pyCharListLe b a = true := by
  induction a generalizing b with
  | nil => exact Or.inl rfl
  | cons c cs ih =>
    cases b with
    | nil => exact Or.inr rfl
    | cons d ds =>
      show (if c < d then true else if d < c then false else pyCharListLe cs ds) = true
        ∨ (if d < c then true else if c < d then false else pyCharListLe ds cs) = true
      by_cases hcd : c < d
      · exact Or.inl (by rw [if_pos hcd])
      · by_cases hdc : d < c
        · exact Or.inr (by rw [if_pos hdc])
        · rw [if_neg hcd, if_neg hdc, if_neg hdc, if_neg hcd]
          exact ih ds

def pyCharListLe_trans (a b c : List Char) (hab : pyCharListLe a b = true)
    (hbc : pyCharListLe b c = true) : pyCharListLe a c = true := by
  induction a generalizing b c with
  | nil => rfl
  | cons x xs ih =>
    cases b with
    | nil => exact absurd hab (by simp [pyCharListLe])
    | cons y ys =>
      cases c with
      | nil => exact absurd hbc (by simp [pyCharListLe])
      | cons z zs =>
        show (if x < z then true else if z < x then false else pyCharListLe xs zs) = true
        have hab' : (if x < y then true else if y < x then false
            else pyCharListLe xs ys) = true := hab
        have hbc' : (if y < z then true else if z < y then false
            else pyCharListLe ys zs) = true := hbc
        by_cases hxy : x < y
        · by_cases hyz : y < z
          · rw [if_pos (lt_trans hxy hyz)]
          · by_cases hzy : z < y
            · rw [if_neg hyz, if_pos hzy] at hbc'
              exact absurd hbc' (by simp)
            · have hyz' : y = z := le_antisymm (not_lt.mp hzy) (not_lt.mp hyz)
              rw [if_pos (hyz' ▸ hxy)]
        · by_cases hyx : y < x
          · rw [if_neg hxy, if_pos hyx] at hab'
            exact absurd hab' (by simp)
          · have hxy' : x = y := le_antisymm (not_lt.mp hyx) (not_lt.mp hxy)
            subst hxy'
            rw [if_neg hxy, if_neg hyx] at hab'
            by_cases hxz : x < z
            · rw [if_pos hxz]
            · by_cases hzx : z < x
              · rw [if_neg hxz, if_pos hzx] at hbc'
                exact absurd hbc' (by simp)
              · rw [if_neg hxz, if_neg hzx] at hbc'
                rw [if_neg hxz, if_neg hzx]
                exact ih ys zs hab' hbc'

def pyCharListLe_antisymm (a b : List Char) (hab : pyCharListLe a b = true)
    (hba : pyCharListLe b a = true) : a = b := by
  induction a generalizing b with
  | nil =>
    cases b with
    | nil => rfl
    | cons d ds => exact absurd hba (by simp [pyCharListLe])
  | cons x xs ih =>
    cases b with
    | nil => exact absurd hab (by simp [pyCharListLe])
    | cons y ys =>
      have hab' : (if x < y then true else if y < x then false
          else pyCharListLe xs ys) = true := hab
      have hba' : (if y < x then true else if x < y then false
          else pyCharListLe ys xs) = true := hba
      by_cases hxy : x < y
      · rw [if_neg (lt_asymm hxy), if_pos hxy] at hba'
        exact absurd hba' (by simp)
      · by_cases hyx : y < x
        · rw [if_neg hxy, if_pos hyx] at hab'
          exact absurd hab' (by simp)
        · have hxy' : x = y := le_antisymm (not_lt.mp hyx) (not_lt.mp hxy)
          rw [if_neg hxy, if_neg hyx] at hab'
          rw [if_neg hyx, if_neg hxy] at hba'
          rw [hxy', ih ys hab' hba']

instance : IsTrans String pyStrLeRel :=
  ⟨fun a b c hab hbc => pyCharListLe_trans a.data b.data c.data hab hbc⟩

instance : IsTotal String pyStrLeRel :=
  ⟨fun a b => pyCharListLe_total a.data b.data⟩

instance : IsAntisymm String pyStrLeRel :=
  ⟨fun a b hab hba => by
    have h := pyCharListLe_antisymm a.data b.data hab hba
    cases a
    cases b
    exact congrArg String.mk h⟩

mutual

/-- The registrations `visit` performs on one statement, in order. -/
def stmtRegs : PyStmt → List (String × List String)
  | PyStmt.classDef name bases body =>
    (get_full_class_name name, extract_base_names bases) :: stmtRegsList body
  | PyStmt.otherStmt children => stmtRegsList children

/-- The registrations `visit` performs on a statement list, in order. -/
def stmtRegsList : List PyStmt → List (String × List String)
  | [] => []
  | s :: rest => stmtRegs s ++ stmtRegsList rest

end

/-- The `(name, direct parents)` registrations one unit contributes. -/
def unitParentOps (u : SourceUnit) : List (String × List String) :=
  match u.parsed with
  | Except.ok tree => stmtRegsList tree
  | Except.error _ => []

/-- The class names one unit registers, in order. -/
def unitNames (u : SourceUnit) : List String :=
  (unitParentOps u).map Prod.fst

/-- The `class_modules` insertions one unit contributes. -/
def unitModOps (u : SourceUnit) : List (String × String) :=
  (unitNames u).map (fun n => (n, u.path))

/-- The `module_contents` insertions one unit contributes. -/
def unitContentOps (u : SourceUnit) : List (String × String) :=
  (unitNames u).map (fun _ => (u.path, u.content))

/-- The contribution of inner-loop column `pp` for child `c` to the group
keyed `k`. -/
def emitInGroup (g : InheritanceGraph) (fuel : Nat) (k : String × String) (c pp : String) :
    Option (String × String) :=
  (pairEmit g fuel c pp).bind (fun pr => if pairKey g pr = some k then some pr else none)

/-- The graph a run over the given units builds. -/
def runGraph (us : List SourceUnit) : InheritanceGraph :=
  (process_codebase us).1.inheritance_graph

/-- A unit declaring `class Base`, used to witness C5. -/
def unitBaseA : SourceUnit :=
  { path := "a.py"
    content := "class Base:\n    pass\n"
    parsed := Except.ok [PyStmt.classDef "Base" [] []] }

/-- A unit declaring `class Sub(Base)`, used to witness C5. -/
def unitSubB : SourceUnit :=
  { path := "b.py"
    content := "class Sub(Base):\n    pass\n"
    parsed := Except.ok [PyStmt.classDef "Sub" [PyExpr.name "Base"] []] }

theorem is_subclass_self (g : InheritanceGraph) (fuel : Nat) (a : String) :
    is_subclass g (fuel + 1) a a = some true := by
  simp [is_subclass]

theorem is_subclass_unknown {g : InheritanceGraph} {c a : String} (fuel : Nat)
    (hca : c ≠ a) (h : dictGet g.direct_parents c = none) :
    is_subclass g (fuel + 1) c a = some false := by
  simp [is_subclass, hca, h]

theorem is_subclass_parent {g : InheritanceGraph} {c a : String} {ds : List String} (fuel : Nat)
    (hca : c ≠ a) (h : dictGet g.direct_parents c = some ds) (hmem : a ∈ ds) :
    is_subclass g (fuel + 1) c a = some true := by
  simp [is_subclass, hca, h, hmem]

theorem is_subclass_rec {g : InheritanceGraph} {c a : String} {ds : List String} (fuel : Nat)
    (hca : c ≠ a) (h : dictGet g.direct_parents c = some ds) (hmem : a ∉ ds) :
    is_subclass g (fuel + 1) c a = anyCheck (fun p => is_subclass g fuel p a) ds := by
  simp [is_subclass, hca, h, hmem]

theorem anyCheck_eq_true {f : String → Option Bool} {ps : List String}
    (h : anyCheck f ps = some true) : ∃ p ∈ ps, f p = some true := by
  induction ps with
  | nil => simp [anyCheck] at h
  | cons p rest ih =>
    unfold anyCheck at h
    cases hp : f p with
    | none => rw [hp] at h; exact absurd h (by simp)
    | some b =>
      cases b with
      | true => exact ⟨p, by simp, hp⟩
      | false =>
        rw [hp] at h
        obtain ⟨q, hq, hfq⟩ := ih h
        exact ⟨q, by simp [hq], hfq⟩

theorem anyCheck_eq_false {f : String → Option Bool} {ps : List String}
    (h : anyCheck f ps = some false) : ∀ p ∈ ps, f p = some false := by
  induction ps with
  | nil => simp
  | cons p rest ih =>
    intro q hq
    unfold anyCheck at h
    cases hp : f p with
    | none => rw [hp] at h; exact absurd h (by simp)
    | some b =>
      cases b with
      | true => rw [hp] at h; exact absurd h (by simp)
      | false =>
        rw [hp] at h
        rcases List.mem_cons.mp hq with rfl | hq'
        · exact hp
        · exact ih h q hq'

theorem anyCheck_of_mem_true {f : String → Option Bool} {ps : List String} {p : String}
    (hp : p ∈ ps) (hfp : f p = some true) (hall : ∀ q ∈ ps, f q ≠ none) :
    anyCheck f ps = some true := by
  induction ps with
  | nil => cases hp
  | cons q rest ih =>
    unfold anyCheck
    rcases List.mem_cons.mp hp with rfl | hp'
    · rw [hfp]
    · cases hq : f q with
      | none => exact absurd hq (hall q (by simp))
      | some b =>
        cases b with
        | true => rfl
        | false => exact ih hp' (fun r hr => hall r (by simp [hr]))

theorem anyCheck_of_all_false {f : String → Option Bool} {ps : List String}
    (hall : ∀ q ∈ ps, f q = some false) : anyCheck f ps = some false := by
  induction ps with
  | nil => rfl
  | cons q rest ih =>
    unfold anyCheck
    rw [hall q (by simp)]
    exact ih (fun r hr => hall r (by simp [hr]))

/-- A `true` answer of `is_subclass` is sound for the ancestor relation. -/
theorem is_subclass_sound {g : InheritanceGraph} {fuel : Nat} {c a : String}
    (h : is_subclass g fuel c a = some true) : IsAncestor g a c := by
  induction fuel generalizing c with
  | zero => exact absurd h (by simp [is_subclass])
  | succ fuel ih =>
    by_cases hca : c = a
    · subst hca; exact IsAncestor.refl
    · cases hps : dictGet g.direct_parents c with
      | none => rw [is_subclass_unknown fuel hca hps] at h; exact absurd h (by simp)
      | some ps =>
        by_cases hmem : a ∈ ps
        · exact IsAncestor.step c ps a hps hmem IsAncestor.refl
        · rw [is_subclass_rec fuel hca hps hmem] at h
          obtain ⟨p, hp, hfp⟩ := anyCheck_eq_true h
          exact IsAncestor.step c ps p hps hp (ih hfp)

/-- A `false` answer of `is_subclass` is complete: no ancestor path exists. -/
theorem is_subclass_complete {g : InheritanceGraph} {fuel : Nat} {c a : String}
    (h : is_subclass g fuel c a = some false) : ¬ IsAncestor g a c := by
  induction fuel generalizing c with
  | zero => exact absurd h (by simp [is_subclass])
  | succ fuel ih =>
    by_cases hca : c = a
    · subst hca; rw [is_subclass_self] at h; exact absurd h (by simp)
    · cases hps : dictGet g.direct_parents c with
      | none =>
        intro hanc
        cases hanc with
        | refl => exact hca rfl
        | step _ ps p hget hp hpanc => rw [hps] at hget; exact absurd hget (by simp)
      | some ps =>
        by_cases hmem : a ∈ ps
        · rw [is_subclass_parent fuel hca hps hmem] at h; exact absurd h (by simp)
        · rw [is_subclass_rec fuel hca hps hmem] at h
          intro hanc
          cases hanc with
          | refl => exact hca rfl
          | step _ ps' p hget hp hpanc =>
            rw [hps] at hget
            injection hget with hps'
            subst hps'
            exact ih (anyCheck_eq_false h p hp) hpanc

/-- Whenever `is_subclass` returns, its answer decides `IsAncestor`. -/
theorem is_subclass_correct {g : InheritanceGraph} {fuel : Nat} {c a : String} {b : Bool}
    (h : is_subclass g fuel c a = some b) : b = true ↔ IsAncestor g a c := by
  cases b with
  | true => simp [is_subclass_sound h]
  | false => simp [is_subclass_complete h]

/-- More fuel never changes an answer that has been reached. -/
theorem is_subclass_mono {g : InheritanceGraph} {fuel fuel' : Nat} {c a : String} {b : Bool}
    (hle : fuel ≤ fuel') (h : is_subclass g fuel c a = some b) :
    is_subclass g fuel' c a = some b := by
  induction fuel generalizing c fuel' b with
  | zero => exact absurd h (by simp [is_subclass])
  | succ fuel ih =>
    obtain ⟨f', rfl⟩ : ∃ f', fuel' = f' + 1 := ⟨fuel' - 1, by omega⟩
    have hle' : fuel ≤ f' := by omega
    by_cases hca : c = a
    · subst hca; rw [is_subclass_self] at h; rw [is_subclass_self]; exact h
    · cases hps : dictGet g.direct_parents c with
      | none =>
        rw [is_subclass_unknown fuel hca hps] at h
        rw [is_subclass_unknown f' hca hps]
        exact h
      | some ps =>
        by_cases hmem : a ∈ ps
        · rw [is_subclass_parent fuel hca hps hmem] at h
          rw [is_subclass_parent f' hca hps hmem]
          exact h
        · rw [is_subclass_rec fuel hca hps hmem] at h
          rw [is_subclass_rec f' hca hps hmem]
          clear hps hmem
          induction ps with
          | nil => exact h
          | cons p rest ihps =>
            unfold anyCheck at h ⊢
            cases hp : is_subclass g fuel p a with
            | none => rw [hp] at h; exact absurd h (by simp)
            | some pb =>
              rw [hp] at h
              rw [ih hle' hp]
              cases pb with
              | true => exact h
              | false => exact ihps h

/-- C1: on the cyclic graph `A ↔ B`, the identity query `is_ancestor(A, A)`
does return `true` and a query about an unregistered name returns `false`,
but the reachability query `is_ancestor(C, A)` (is the unrelated `C` an
ancestor of the cycle member `A`?) recurses `A → B → A → …` without a
visited set and never returns, at any recursion depth: the code violates
the claim that every reachability query terminates on cyclic graphs. -/
theorem claim_C1_cycle_query_never_returns :
    (∀ fuel, is_ancestor cycleGraph (fuel + 1) "A" "A" = some true)
    ∧ (∀ fuel, is_ancestor cycleGraph (fuel + 1) "A" "Unrelated" = some false)
    ∧ (∀ fuel, is_ancestor cycleGraph fuel "C" "A" = none) := by
  refine ⟨fun fuel => is_subclass_self _ _ _,
    fun fuel => is_subclass_unknown fuel (by decide) (by decide), fun fuel => ?_⟩
  have key : ∀ n, is_subclass cycleGraph n "A" "C" = none
      ∧ is_subclass cycleGraph n "B" "C" = none := by
    intro n
    induction n with
    | zero => exact ⟨rfl, rfl⟩
    | succ n ih =>
      constructor
      · rw [is_subclass_rec n (by decide) (show _ = some ["B"] by decide) (by decide)]
        unfold anyCheck
        rw [ih.2]
      · rw [is_subclass_rec n (by decide) (show _ = some ["A"] by decide) (by decide)]
        unfold anyCheck
        rw [ih.1]
  exact (key fuel).1

/-- On a self-looping parent entry (`d`'s parents are `{d}`), a query for
any other candidate ancestor recurses on `d` forever. -/
theorem is_subclass_self_loop_none {g : InheritanceGraph} {d a : String}
    (hda : d ≠ a) (hd : dictGet g.direct_parents d = some [d]) :
    ∀ fuel, is_subclass g fuel d a = none := by
  intro fuel
  induction fuel with
  | zero => rfl
  | succ fuel ih =>
    rw [is_subclass_rec fuel hda hd (by simpa using Ne.symm hda)]
    unfold anyCheck
    rw [ih]

/-- The spec's recursive characterisation of `is_ancestor`, unfolded one
step: it is exactly the ancestor relation. -/
theorem isAncestor_iff (g : InheritanceGraph) (ca name : String) :
    IsAncestor g ca name ↔
      (ca = name
        ∨ (∃ ps, dictGet g.direct_parents name = some ps ∧ ca ∈ ps)
        ∨ (∃ ps p, dictGet g.direct_parents name = some ps ∧ p ∈ ps ∧ IsAncestor g ca p)) := by
  constructor
  · intro h
    cases h with
    | refl => exact Or.inl rfl
    | step _ ps p hget hp hanc => exact Or.inr (Or.inr ⟨ps, p, hget, hp, hanc⟩)
  · rintro (rfl | ⟨ps, hget, hmem⟩ | ⟨ps, p, hget, hp, hanc⟩)
    · exact IsAncestor.refl
    · exact IsAncestor.step name ps ca hget hmem IsAncestor.refl
    · exact IsAncestor.step name ps p hget hp hanc

/-- C2 (amended): whenever `is_ancestor(candidate_ancestor, name)` returns a
value, that value is `true` iff `candidate_ancestor = name`, or
`candidate_ancestor` is a direct parent of `name`, or it is an ancestor of
some direct parent of `name`; and a never-registered `name` yields `false`
unless `candidate_ancestor = name`. -/
theorem claim_C2_returns_iff (g : InheritanceGraph) (fuel : Nat)
    (candidate_ancestor name : String) (b : Bool)
    (h : is_ancestor g fuel candidate_ancestor name = some b) :
    (b = true ↔
      (candidate_ancestor = name
        ∨ (∃ ps, dictGet g.direct_parents name = some ps ∧ candidate_ancestor ∈ ps)
        ∨ (∃ ps p, dictGet g.direct_parents name = some ps ∧ p ∈ ps
            ∧ IsAncestor g candidate_ancestor p)))
    ∧ (dictGet g.direct_parents name = none → (b = true ↔ candidate_ancestor = name)) := by
  have hcorrect := is_subclass_correct h
  constructor
  · rw [hcorrect]
    exact isAncestor_iff g candidate_ancestor name
  · intro hnone
    rw [hcorrect]
    constructor
    · intro hanc
      cases hanc with
      | refl => rfl
      | step _ ps p hget hp hpanc => rw [hnone] at hget; exact absurd hget (by simp)
    · rintro rfl
      exact IsAncestor.refl

theorem claim_C2_returns_iff_witness :
    (true = true ↔
      ("A" = "B"
        ∨ (∃ ps, dictGet cycleGraph.direct_parents "B" = some ps ∧ "A" ∈ ps)
        ∨ (∃ ps p, dictGet cycleGraph.direct_parents "B" = some ps ∧ p ∈ ps
            ∧ IsAncestor cycleGraph "A" p)))
    ∧ (dictGet cycleGraph.direct_parents "B" = none → (true = true ↔ "A" = "B")) :=
  claim_C2_returns_iff cycleGraph 1 "A" "B" true (by decide)

theorem branchGraph_query_none :
    ∀ fuel, is_ancestor branchGraph fuel "A" "N" = none := by
  intro fuel
  cases fuel with
  | zero => rfl
  | succ fuel =>
    show is_subclass branchGraph (fuel + 1) "N" "A" = none
    rw [is_subclass_rec fuel (by decide) (show _ = some ["D", "P"] by decide) (by decide)]
    unfold anyCheck
    rw [is_subclass_self_loop_none (by decide) (by decide) fuel]

/-- C2, as stated, is false on the code: on `branchGraph`,
`candidate_ancestor = "A"` is an ancestor of the direct parent `"P"` of
`name = "N"`, yet `is_ancestor("A", "N")` never returns `true` (it never
returns at all, recursing forever into the cyclic `D` branch). -/
theorem claim_C2_counterexample :
    (¬ ∃ fuel, is_ancestor branchGraph fuel "A" "N" = some true)
    ∧ (∃ ps p, dictGet branchGraph.direct_parents "N" = some ps ∧ p ∈ ps
        ∧ IsAncestor branchGraph "A" p) := by
  constructor
  · rintro ⟨fuel, hf⟩
    rw [branchGraph_query_none fuel] at hf
    exact absurd hf (by simp)
  · refine ⟨["D", "P"], "P", by decide, by decide, ?_⟩
    exact IsAncestor.step "P" ["A"] "A" (by decide) (by decide) IsAncestor.refl

/-- C8 (amended): if `A` is a direct parent of `B` and `B` a direct parent
of `C` (with `B` registered), then whenever the query `is_ancestor(A, C)`
returns a value, that value is `true`. -/
theorem claim_C8_transitive_when_returns (g : InheritanceGraph) (A B C : String)
    (psB psC : List String)
    (hB : dictGet g.direct_parents B = some psB) (hA : A ∈ psB)
    (hC : dictGet g.direct_parents C = some psC) (hBC : B ∈ psC)
    (fuel : Nat) (b : Bool) (h : is_ancestor g fuel A C = some b) : b = true := by
  have hanc : IsAncestor g A C :=
    IsAncestor.step C psC B hC hBC (IsAncestor.step B psB A hB hA IsAncestor.refl)
  cases b with
  | true => rfl
  | false => exact absurd hanc (is_subclass_complete h)

theorem claim_C8_transitive_when_returns_witness : true = true :=
  claim_C8_transitive_when_returns chainGraph "A" "B" "C" ["A"] ["B"]
    (by decide) (by decide) (by decide) (by decide) 2 true (by decide)

/-- C8, as stated, is false on the code: on `branchChainGraph` the
hypotheses of the transitivity claim hold, yet `is_ancestor("A", "C")`
never returns `true` (it never returns at all). -/
theorem claim_C8_counterexample :
    dictGet branchChainGraph.direct_parents "B" = some ["A"]
    ∧ dictGet branchChainGraph.direct_parents "C" = some ["D", "B"]
    ∧ "B" ∈ ["D", "B"]
    ∧ ¬ ∃ fuel, is_ancestor branchChainGraph fuel "A" "C" = some true := by
  refine ⟨by decide, by decide, by decide, ?_⟩
  rintro ⟨fuel, hf⟩
  have hnone : ∀ n, is_ancestor branchChainGraph n "A" "C" = none := by
    intro n
    cases n with
    | zero => rfl
    | succ n =>
      show is_subclass branchChainGraph (n + 1) "C" "A" = none
      rw [is_subclass_rec n (by decide) (show _ = some ["D", "B"] by decide) (by decide)]
      unfold anyCheck
      rw [is_subclass_self_loop_none (by decide) (by decide) n]
  rw [hnone fuel] at hf
  exact absurd hf (by simp)

theorem pairsForChild_eq {g : InheritanceGraph} {fuel : Nat} {child : String}
    {pps : List String} {l : List (String × String)}
    (h : pairsForChild g fuel child pps = some l) :
    l = pps.filterMap (pairEmit g fuel child) := by
  induction pps generalizing l with
  | nil => simp [pairsForChild] at h; simp [h]
  | cons pp rest ih =>
    unfold pairsForChild at h
    by_cases hcp : child = pp
    · rw [if_pos hcp] at h
      simp only [List.filterMap_cons, pairEmit, if_pos hcp]
      exact ih h
    · rw [if_neg hcp] at h
      cases hchk : is_subclass g fuel child pp with
      | none => rw [hchk] at h; exact absurd h (by simp)
      | some b =>
        rw [hchk] at h
        cases b with
        | true =>
          cases hrest : pairsForChild g fuel child rest with
          | none => rw [hrest] at h; exact absurd h (by simp)
          | some ps =>
            rw [hrest] at h
            injection h with h'
            subst h'
            have hemit : pairEmit g fuel child pp = some (pp, child) := by
              simp [pairEmit, hcp, hchk]
            simp only [List.filterMap_cons, hemit]
            rw [ih hrest]
        | false =>
          have hemit : pairEmit g fuel child pp = none := by
            simp [pairEmit, hcp, hchk]
          simp only [List.filterMap_cons, hemit]
          exact ih h

theorem pairsForChild_checks {g : InheritanceGraph} {fuel : Nat} {child : String}
    {pps : List String} {l : List (String × String)}
    (h : pairsForChild g fuel child pps = some l) :
    ∀ pp ∈ pps, child ≠ pp → is_subclass g fuel child pp ≠ none := by
  induction pps generalizing l with
  | nil => simp
  | cons pp rest ih =>
    intro q hq hne
    unfold pairsForChild at h
    by_cases hcp : child = pp
    · rw [if_pos hcp] at h
      rcases List.mem_cons.mp hq with rfl | hq'
      · exact absurd hcp hne
      · exact ih h q hq' hne
    · rw [if_neg hcp] at h
      cases hchk : is_subclass g fuel child pp with
      | none => rw [hchk] at h; exact absurd h (by simp)
      | some b =>
        rw [hchk] at h
        rcases List.mem_cons.mp hq with rfl | hq'
        · simp [hchk]
        · cases b with
          | true =>
            cases hrest : pairsForChild g fuel child rest with
            | none => rw [hrest] at h; exact absurd h (by simp)
            | some ps => exact ih hrest q hq' hne
          | false => exact ih h q hq' hne

theorem allPairsAux_eq {g : InheritanceGraph} {fuel : Nat} {cs : List String}
    {l : List (String × String)} (h : allPairsAux g fuel cs = some l) :
    l = (cs.map (fun c =>
      (dictKeys g.direct_parents).filterMap (pairEmit g fuel c))).flatten := by
  induction cs generalizing l with
  | nil => simp [allPairsAux] at h; simp [h]
  | cons c rest ih =>
    unfold allPairsAux at h
    cases hc : pairsForChild g fuel c (dictKeys g.direct_parents) with
    | none => rw [hc] at h; exact absurd h (by simp)
    | some ps =>
      cases hrest : allPairsAux g fuel rest with
      | none => rw [hc, hrest] at h; exact absurd h (by simp)
      | some qs =>
        rw [hc, hrest] at h
        injection h with h'
        subst h'
        simp only [List.map_cons, List.flatten_cons]
        rw [← pairsForChild_eq hc, ← ih hrest]

theorem allPairsAux_checks {g : InheritanceGraph} {fuel : Nat} {cs : List String}
    {l : List (String × String)} (h : allPairsAux g fuel cs = some l) :
    ∀ c ∈ cs, ∀ pp ∈ dictKeys g.direct_parents, c ≠ pp →
      is_subclass g fuel c pp ≠ none := by
  induction cs generalizing l with
  | nil => simp
  | cons c rest ih =>
    intro c' hc' pp hpp hne
    unfold allPairsAux at h
    cases hc : pairsForChild g fuel c (dictKeys g.direct_parents) with
    | none => rw [hc] at h; exact absurd h (by simp)
    | some ps =>
      cases hrest : allPairsAux g fuel rest with
      | none => rw [hc, hrest] at h; exact absurd h (by simp)
      | some qs =>
        rcases List.mem_cons.mp hc' with rfl | hc''
        · exact pairsForChild_checks hc pp hpp hne
        · exact ih hrest c' hc'' pp hpp hne

theorem mem_filterMap_pairEmit {g : InheritanceGraph} {fuel : Nat} {c a d : String}
    {pps : List String} :
    (a, d) ∈ pps.filterMap (pairEmit g fuel c) ↔
      d = c ∧ a ∈ pps ∧ c ≠ a ∧ is_subclass g fuel c a = some true := by
  rw [List.mem_filterMap]
  constructor
  · rintro ⟨pp, hpp, hemit⟩
    unfold pairEmit at hemit
    by_cases hcp : c = pp
    · rw [if_pos hcp] at hemit; exact absurd hemit (by simp)
    · rw [if_neg hcp] at hemit
      by_cases hchk : is_subclass g fuel c pp = some true
      · rw [if_pos hchk] at hemit
        rw [Option.some_inj, Prod.mk.injEq] at hemit
        obtain ⟨rfl, rfl⟩ := hemit
        exact ⟨rfl, hpp, hcp, hchk⟩
      · rw [if_neg hchk] at hemit; exact absurd hemit (by simp)
  · rintro ⟨rfl, hmem, hne, hchk⟩
    refine ⟨a, hmem, ?_⟩
    unfold pairEmit
    rw [if_neg hne, if_pos hchk]

theorem pairEmit_eq_some {g : InheritanceGraph} {fuel : Nat} {c pp : String}
    {x : String × String} (h : pairEmit g fuel c pp = some x) :
    x = (pp, c) ∧ c ≠ pp ∧ is_subclass g fuel c pp = some true := by
  unfold pairEmit at h
  by_cases hcp : c = pp
  · rw [if_pos hcp] at h; exact absurd h (by simp)
  · rw [if_neg hcp] at h
    by_cases hchk : is_subclass g fuel c pp = some true
    · rw [if_pos hchk] at h
      exact ⟨(Option.some_inj.mp h).symm, hcp, hchk⟩
    · rw [if_neg hchk] at h; exact absurd h (by simp)

theorem mem_pairEmit_filterMap_snd {g : InheritanceGraph} {fuel : Nat} {c : String}
    {pps : List String} {x : String × String}
    (h : x ∈ pps.filterMap (pairEmit g fuel c)) : x.2 = c := by
  rw [List.mem_filterMap] at h
  obtain ⟨pp, _, hemit⟩ := h
  rw [(pairEmit_eq_some hemit).1]

/-- Membership in a successful `get_all_pairs` enumeration is exactly:
both names registered, distinct, and the ancestor relation holds. -/
theorem get_all_pairs_mem {g : InheritanceGraph} {fuel : Nat}
    {pairs : List (String × String)} (h : get_all_pairs g fuel = some pairs)
    (a d : String) :
    (a, d) ∈ pairs ↔
      (a ∈ dictKeys g.direct_parents ∧ d ∈ dictKeys g.direct_parents ∧ a ≠ d
        ∧ IsAncestor g a d) := by
  unfold get_all_pairs at h
  rw [allPairsAux_eq h, List.mem_flatten]
  constructor
  · rintro ⟨l, hl, hmem⟩
    rw [List.mem_map] at hl
    obtain ⟨c, hc, rfl⟩ := hl
    rw [mem_filterMap_pairEmit] at hmem
    obtain ⟨rfl, ha, hne, hchk⟩ := hmem
    exact ⟨ha, hc, Ne.symm hne, is_subclass_sound hchk⟩
  · rintro ⟨ha, hd, hne, hanc⟩
    refine ⟨(dictKeys g.direct_parents).filterMap (pairEmit g fuel d),
      List.mem_map.mpr ⟨d, hd, rfl⟩, ?_⟩
    rw [mem_filterMap_pairEmit]
    refine ⟨rfl, ha, Ne.symm hne, ?_⟩
    have hcheck := allPairsAux_checks h d hd a ha (Ne.symm hne)
    cases hchk : is_subclass g fuel d a with
    | none => exact absurd hchk hcheck
    | some b =>
      cases b with
      | true => rfl
      | false => exact absurd hanc (is_subclass_complete hchk)

/-- A successful `get_all_pairs` enumeration has no duplicates (given the
dict invariant that registered names are unique). -/
theorem get_all_pairs_nodup {g : InheritanceGraph} {fuel : Nat}
    {pairs : List (String × String)} (h : get_all_pairs g fuel = some pairs)
    (hnodup : (dictKeys g.direct_parents).Nodup) : pairs.Nodup := by
  unfold get_all_pairs at h
  rw [allPairsAux_eq h, List.nodup_flatten]
  constructor
  · intro l hl
    rw [List.mem_map] at hl
    obtain ⟨c, _, rfl⟩ := hl
    refine List.Nodup.filterMap ?_ hnodup
    intro pp pp' x hx hx'
    rw [(pairEmit_eq_some hx).1] at hx'
    exact ((pairEmit_eq_some hx').1.symm ▸ rfl : (pp, c).1 = pp')
  · rw [List.pairwise_map]
    refine List.Pairwise.imp ?_ hnodup
    intro c c' hne x hx hx'
    exact hne ((mem_pairEmit_filterMap_snd hx).symm.trans (mem_pairEmit_filterMap_snd hx'))

/-- C4 (amended): whenever `get_all_pairs` returns, the returned sequence
contains `(ancestor, descendant)` iff the two are distinct registered
names with `is_ancestor(ancestor, descendant)`; it contains no `(X, X)`
and no duplicate pairs. -/
theorem claim_C4_all_pairs_characterization (g : InheritanceGraph) (fuel : Nat)
    (pairs : List (String × String))
    (hsome : get_all_pairs g fuel = some pairs)
    (hnodup : (dictKeys g.direct_parents).Nodup) :
    (∀ a d, (a, d) ∈ pairs ↔
        (a ∈ dictKeys g.direct_parents ∧ d ∈ dictKeys g.direct_parents ∧ a ≠ d
          ∧ IsAncestor g a d))
    ∧ (∀ x, (x, x) ∉ pairs)
    ∧ pairs.Nodup := by
  refine ⟨get_all_pairs_mem hsome, ?_, get_all_pairs_nodup hsome hnodup⟩
  intro x hx
  rw [get_all_pairs_mem hsome] at hx
  exact hx.2.2.1 rfl

theorem claim_C4_all_pairs_characterization_witness :
    (∀ a d, (a, d) ∈ [("B", "C")] ↔
        (a ∈ dictKeys chainGraph.direct_parents ∧ d ∈ dictKeys chainGraph.direct_parents
          ∧ a ≠ d ∧ IsAncestor chainGraph a d))
    ∧ (∀ x, (x, x) ∉ [("B", "C")])
    ∧ ([("B", "C")] : List (String × String)).Nodup :=
  claim_C4_all_pairs_characterization chainGraph 2 [("B", "C")] (by decide) (by decide)

/-- C4, as stated ("for every input graph"), is false on the code: on
`divergingGraph` the enumeration never returns anything, although a
qualifying ordered pair of distinct registered names exists. -/
theorem claim_C4_counterexample :
    (¬ ∃ fuel pairs, get_all_pairs divergingGraph fuel = some pairs)
    ∧ "D" ∈ dictKeys divergingGraph.direct_parents
    ∧ "N" ∈ dictKeys divergingGraph.direct_parents
    ∧ "D" ≠ "N"
    ∧ IsAncestor divergingGraph "D" "N" := by
  refine ⟨?_, by decide, by decide, by decide, ?_⟩
  · rintro ⟨fuel, pairs, h⟩
    unfold get_all_pairs at h
    have hcheck := allPairsAux_checks h "D" (by decide) "N" (by decide) (by decide)
    exact hcheck (is_subclass_self_loop_none (by decide) (by decide) fuel)
  · exact IsAncestor.step "N" ["D", "P"] "D" (by decide) (by decide) IsAncestor.refl

/-- C3 fails on the code: the nested class is registered under its bare
name `"Inner"`, not under the dot-joined `"Outer.Inner"` that the claim
(and `_get_full_class_name`'s dead parent-walking loop) intends, because
`ast.parse` never sets the `parent` backlinks the loop tests for. -/
theorem claim_C3_nested_names_not_qualified :
    dictKeys (process_codebase [outerInnerUnit]).1.inheritance_graph.direct_parents
        = ["Outer", "Inner"]
    ∧ "Outer.Inner" ∉
        dictKeys (process_codebase [outerInnerUnit]).1.inheritance_graph.direct_parents
    ∧ specFullyQualifiedName ["Outer"] "Inner" = "Outer.Inner" := by
  exact ⟨rfl, by decide, rfl⟩

/-- C10: only `ast.Name` and `ast.Attribute` base expressions become
direct parents; a subscripted generic such as `Generic[T]`, or any other
base shape, is silently omitted.  The last conjunct runs the concrete
`class C(Generic[T], Base)` scenario. -/
theorem claim_C10_non_name_bases_omitted :
    (∀ (bases : List PyExpr) (v i : PyExpr),
        extract_base_names (PyExpr.subscript v i :: bases) = extract_base_names bases)
    ∧ (∀ bases : List PyExpr,
        extract_base_names (PyExpr.otherExpr :: bases) = extract_base_names bases)
    ∧ (∀ (bases : List PyExpr) (s : String),
        s ∈ extract_base_names bases ↔
          ∃ b ∈ bases,
            (∃ nm, b = PyExpr.name nm ∧ s = nm)
            ∨ (∃ v a, b = PyExpr.attributeExpr v a ∧ s = get_full_attr_name v a))
    ∧ extract_base_names
        [PyExpr.subscript (PyExpr.name "Generic") (PyExpr.name "T"), PyExpr.name "Base"]
        = ["Base"] := by
  refine ⟨fun bases v i => rfl, fun bases => rfl, ?_, rfl⟩
  intro bases s
  induction bases with
  | nil => simp [extract_base_names]
  | cons b rest ih =>
    cases b with
    | name nm =>
      simp only [extract_base_names, List.mem_cons, ih]
      constructor
      · rintro (h1 | ⟨b', hb', hcase⟩)
        · exact ⟨PyExpr.name nm, Or.inl rfl, Or.inl ⟨nm, rfl, h1⟩⟩
        · exact ⟨b', Or.inr hb', hcase⟩
      · rintro ⟨b', hb' | hb', hcase⟩
        · rcases hcase with ⟨nm', hnm', rfl⟩ | ⟨v, a, hva, rfl⟩
          · rw [hb'] at hnm'
            injection hnm' with h'
            exact Or.inl h'.symm
          · rw [hb'] at hva
            exact absurd hva (by simp)
        · exact Or.inr ⟨b', hb', hcase⟩
    | attributeExpr v a =>
      simp only [extract_base_names, List.mem_cons, ih]
      constructor
      · rintro (h1 | ⟨b', hb', hcase⟩)
        · exact ⟨PyExpr.attributeExpr v a, Or.inl rfl, Or.inr ⟨v, a, rfl, h1⟩⟩
        · exact ⟨b', Or.inr hb', hcase⟩
      · rintro ⟨b', hb' | hb', hcase⟩
        · rcases hcase with ⟨nm', hnm', rfl⟩ | ⟨v', a', hva', rfl⟩
          · rw [hb'] at hnm'
            exact absurd hnm' (by simp)
          · rw [hb'] at hva'
            injection hva' with h1 h2
            subst h1; subst h2
            exact Or.inl rfl
        · exact Or.inr ⟨b', hb', hcase⟩
    | subscript v i =>
      simp only [extract_base_names, List.mem_cons, ih]
      constructor
      · rintro ⟨b', hb', hcase⟩
        exact ⟨b', Or.inr hb', hcase⟩
      · rintro ⟨b', hb' | hb', hcase⟩
        · rcases hcase with ⟨nm', hnm', rfl⟩ | ⟨v', a', hva', rfl⟩
          · rw [hb'] at hnm'; exact absurd hnm' (by simp)
          · rw [hb'] at hva'; exact absurd hva' (by simp)
        · exact ⟨b', hb', hcase⟩
    | otherExpr =>
      simp only [extract_base_names, List.mem_cons, ih]
      constructor
      · rintro ⟨b', hb', hcase⟩
        exact ⟨b', Or.inr hb', hcase⟩
      · rintro ⟨b', hb' | hb', hcase⟩
        · rcases hcase with ⟨nm', hnm', rfl⟩ | ⟨v', a', hva', rfl⟩
          · rw [hb'] at hnm'; exact absurd hnm' (by simp)
          · rw [hb'] at hva'; exact absurd hva' (by simp)
        · exact ⟨b', hb', hcase⟩

theorem mem_of_dictGet_eq_some {κ α : Type} [DecidableEq κ] {m : List (κ × α)} {k : κ} {v : α}
    (h : dictGet m k = some v) : (k, v) ∈ m := by
  induction m with
  | nil => simp [dictGet] at h
  | cons e rest ih =>
    obtain ⟨k', v'⟩ := e
    unfold dictGet at h
    by_cases hk : k' = k
    · rw [if_pos hk] at h
      subst hk
      injection h with h'
      subst h'
      exact List.mem_cons_self _ _
    · rw [if_neg hk] at h
      exact List.mem_cons_of_mem _ (ih h)

theorem dictGet_eq_some_of_mem {κ α : Type} [DecidableEq κ] {m : List (κ × α)}
    (hnd : (dictKeys m).Nodup) {k : κ} {v : α} (h : (k, v) ∈ m) : dictGet m k = some v := by
  induction m with
  | nil => cases h
  | cons e rest ih =>
    obtain ⟨k', v'⟩ := e
    rcases List.mem_cons.mp h with heq | hmem
    · injection heq with h1 h2
      subst h1; subst h2
      simp [dictGet]
    · unfold dictGet
      have hk : k' ≠ k := by
        rintro rfl
        exact (List.nodup_cons.mp hnd).1
          (by simpa [dictKeys] using List.mem_map_of_mem Prod.fst hmem)
      rw [if_neg hk]
      exact ih (List.nodup_cons.mp hnd).2 hmem

theorem addToGroup_lookup_self (k : String × String) (p : String × String)
    (acc : List ((String × String) × List (String × String))) :
    dictGet (addToGroup k p acc) k = some ((dictGet acc k).getD [] ++ [p]) := by
  induction acc with
  | nil => simp [addToGroup, dictGet]
  | cons e rest ih =>
    obtain ⟨k', ps⟩ := e
    unfold addToGroup
    by_cases hk : k' = k
    · subst hk
      simp [dictGet]
    · rw [if_neg hk]
      unfold dictGet
      rw [if_neg hk, if_neg hk]
      exact ih

theorem addToGroup_lookup_other {k kq : String × String} (h : kq ≠ k) (p : String × String)
    (acc : List ((String × String) × List (String × String))) :
    dictGet (addToGroup k p acc) kq = dictGet acc kq := by
  have hk' : k ≠ kq := Ne.symm h
  induction acc with
  | nil =>
    show dictGet [(k, [p])] kq = dictGet [] kq
    unfold dictGet
    rw [if_neg hk']
    rfl
  | cons e rest ih =>
    obtain ⟨k', ps⟩ := e
    unfold addToGroup
    by_cases hk : k' = k
    · rw [if_pos hk]
      have hk'' : k' ≠ kq := by rw [hk]; exact hk'
      show dictGet ((k, ps ++ [p]) :: rest) kq = dictGet ((k', ps) :: rest) kq
      unfold dictGet
      rw [if_neg hk', if_neg hk'']
    · rw [if_neg hk]
      show dictGet ((k', ps) :: addToGroup k p rest) kq = dictGet ((k', ps) :: rest) kq
      unfold dictGet
      by_cases hkq : k' = kq
      · rw [if_pos hkq, if_pos hkq]
      · rw [if_neg hkq, if_neg hkq]
        exact ih

theorem dictKeys_cons {κ α : Type} (e : κ × α) (m : List (κ × α)) :
    dictKeys (e :: m) = e.1 :: dictKeys m := rfl

theorem addToGroup_keys (k : String × String) (p : String × String)
    (acc : List ((String × String) × List (String × String))) :
    dictKeys (addToGroup k p acc) =
      if k ∈ dictKeys acc then dictKeys acc else dictKeys acc ++ [k] := by
  induction acc with
  | nil => simp [addToGroup, dictKeys]
  | cons e rest ih =>
    obtain ⟨k', ps⟩ := e
    unfold addToGroup
    by_cases hk : k' = k
    · subst hk
      simp [dictKeys]
    · rw [if_neg hk]
      show k' :: dictKeys (addToGroup k p rest) = _
      rw [ih, dictKeys_cons]
      by_cases hmem : k ∈ dictKeys rest
      · rw [if_pos hmem, if_pos (List.mem_cons_of_mem _ hmem)]
      · have hnot : ¬ k ∈ ((k', ps) : (String × String) × List (String × String)).1
            :: dictKeys rest := by
          intro hcon
          rcases List.mem_cons.mp hcon with h1 | h2
          · exact hk h1.symm
          · exact hmem h2
        rw [if_neg hmem, if_neg hnot]
        rfl

theorem groupPairsAux_nodup_keys {g : InheritanceGraph} {ps : List (String × String)}
    {acc out : List ((String × String) × List (String × String))}
    (h : groupPairsAux g ps acc = some out) (hacc : (dictKeys acc).Nodup) :
    (dictKeys out).Nodup := by
  induction ps generalizing acc with
  | nil =>
    unfold groupPairsAux at h
    injection h with h'
    subst h'
    exact hacc
  | cons p rest ih =>
    unfold groupPairsAux at h
    cases hkp : pairKey g p with
    | none => rw [hkp] at h; exact absurd h (by simp)
    | some kp =>
      rw [hkp] at h
      refine ih h ?_
      rw [addToGroup_keys]
      by_cases hmem : kp ∈ dictKeys acc
      · rw [if_pos hmem]; exact hacc
      · rw [if_neg hmem]
        simp [List.nodup_append, hacc, hmem]

theorem groupPairsAux_key_some {g : InheritanceGraph} {ps : List (String × String)}
    {acc out : List ((String × String) × List (String × String))}
    (h : groupPairsAux g ps acc = some out) : ∀ p ∈ ps, pairKey g p ≠ none := by
  induction ps generalizing acc with
  | nil => simp
  | cons p rest ih =>
    intro q hq
    unfold groupPairsAux at h
    cases hkp : pairKey g p with
    | none => rw [hkp] at h; exact absurd h (by simp)
    | some kp =>
      rw [hkp] at h
      rcases List.mem_cons.mp hq with rfl | hq'
      · simp [hkp]
      · exact ih h q hq'

theorem groupPairsAux_lookup {g : InheritanceGraph} {ps : List (String × String)}
    {acc out : List ((String × String) × List (String × String))}
    (h : groupPairsAux g ps acc = some out) (k : String × String) :
    dictGet out k =
      match dictGet acc k with
      | some l0 => some (l0 ++ ps.filter (fun p => pairKey g p = some k))
      | none =>
        if ps.filter (fun p => pairKey g p = some k) = [] then none
        else some (ps.filter (fun p => pairKey g p = some k)) := by
  induction ps generalizing acc with
  | nil =>
    unfold groupPairsAux at h
    injection h with h'
    subst h'
    cases hacc : dictGet acc k <;> simp
  | cons p rest ih =>
    unfold groupPairsAux at h
    cases hkp : pairKey g p with
    | none => rw [hkp] at h; exact absurd h (by simp)
    | some kp =>
      rw [hkp] at h
      by_cases hkk : kp = k
      · subst hkk
        have hfil : (p :: rest).filter (fun q => pairKey g q = some kp)
            = p :: rest.filter (fun q => pairKey g q = some kp) := by
          simp [List.filter_cons, hkp]
        rw [hfil, ih h, addToGroup_lookup_self]
        cases hacc : dictGet acc kp with
        | some l0 => simp
        | none => simp
      · have hfil : (p :: rest).filter (fun q => pairKey g q = some k)
            = rest.filter (fun q => pairKey g q = some k) := by
          simp [List.filter_cons, hkp, hkk]
        rw [hfil, ih h, addToGroup_lookup_other (fun hh => hkk hh.symm)]

/-- C6: grouping by module pair is a true partition of the enumerated
pairs: every pair lands in exactly one group (the one keyed by its
modules), the union of the groups' sequences has exactly the members of
the original pair list, and each group's sequence is the subsequence of
the enumeration with that key (so enumeration order is kept). -/
theorem claim_C6_grouping_partition (g : InheritanceGraph)
    (pairs : List (String × String))
    (groups : List ((String × String) × List (String × String)))
    (hg : group_pairs g pairs = some groups) :
    (∀ p ∈ pairs, ∃ k l, (k, l) ∈ groups ∧ p ∈ l ∧ pairKey g p = some k
        ∧ ∀ k' l', (k', l') ∈ groups → p ∈ l' → k' = k)
    ∧ (∀ x, x ∈ (groups.map Prod.snd).flatten ↔ x ∈ pairs)
    ∧ (∀ k l, (k, l) ∈ groups → l = pairs.filter (fun p => pairKey g p = some k)) := by
  have hnd : (dictKeys groups).Nodup := groupPairsAux_nodup_keys hg (by simp [dictKeys])
  have hlook : ∀ k, dictGet groups k =
      if pairs.filter (fun p => pairKey g p = some k) = [] then none
      else some (pairs.filter (fun p => pairKey g p = some k)) := by
    intro k
    have h := groupPairsAux_lookup hg k
    simpa [dictGet] using h
  have part3 : ∀ k l, (k, l) ∈ groups → l = pairs.filter (fun p => pairKey g p = some k) := by
    intro k l hmem
    have hsome := dictGet_eq_some_of_mem hnd hmem
    rw [hlook k] at hsome
    by_cases hemp : pairs.filter (fun p => pairKey g p = some k) = []
    · rw [if_pos hemp] at hsome; exact absurd hsome (by simp)
    · rw [if_neg hemp] at hsome
      exact (Option.some_inj.mp hsome).symm
  have part1 : ∀ p ∈ pairs, ∃ k l, (k, l) ∈ groups ∧ p ∈ l ∧ pairKey g p = some k
      ∧ ∀ k' l', (k', l') ∈ groups → p ∈ l' → k' = k := by
    intro p hp
    cases hkp : pairKey g p with
    | none => exact absurd hkp (groupPairsAux_key_some hg p hp)
    | some k =>
      have hpfil : p ∈ pairs.filter (fun q => pairKey g q = some k) :=
        List.mem_filter.mpr ⟨hp, by simp [hkp]⟩
      have hne : pairs.filter (fun q => pairKey g q = some k) ≠ [] :=
        List.ne_nil_of_mem hpfil
      have hget : dictGet groups k = some (pairs.filter (fun q => pairKey g q = some k)) := by
        rw [hlook k, if_neg hne]
      refine ⟨k, pairs.filter (fun q => pairKey g q = some k),
        mem_of_dictGet_eq_some hget, hpfil, rfl, ?_⟩
      intro k' l' hmem' hpl'
      have hl' := part3 k' l' hmem'
      rw [hl'] at hpl'
      have := (List.mem_filter.mp hpl').2
      simp only [decide_eq_true_eq] at this
      rw [hkp] at this
      exact (Option.some_inj.mp this.symm)
  refine ⟨part1, ?_, part3⟩
  intro x
  rw [List.mem_flatten]
  constructor
  · rintro ⟨l, hl, hx⟩
    rw [List.mem_map] at hl
    obtain ⟨⟨k, l'⟩, hmem, rfl⟩ := hl
    have := part3 k l' hmem
    subst this
    exact (List.mem_filter.mp hx).1
  · intro hx
    obtain ⟨k, l, hmem, hxl, _, _⟩ := part1 x hx
    exact ⟨l, List.mem_map.mpr ⟨(k, l), hmem, rfl⟩, hxl⟩

theorem claim_C6_grouping_partition_witness :
    (∀ p ∈ [("B", "C")], ∃ k l,
        (k, l) ∈ [(("m.py", "m.py"), [("B", "C")])] ∧ p ∈ l
        ∧ pairKey chainGraph p = some k
        ∧ ∀ k' l', (k', l') ∈ [(("m.py", "m.py"), [("B", "C")])] → p ∈ l' → k' = k)
    ∧ (∀ x, x ∈ ([(("m.py", "m.py"), [("B", "C")])].map Prod.snd).flatten ↔ x ∈ [("B", "C")])
    ∧ (∀ k l, (k, l) ∈ [(("m.py", "m.py"), [("B", "C")])] →
        l = [("B", "C")].filter (fun p => pairKey chainGraph p = some k)) :=
  claim_C6_grouping_partition chainGraph [("B", "C")] [(("m.py", "m.py"), [("B", "C")])]
    (by decide)

theorem mem_setAdd {s : List String} {x y : String} :
    y ∈ setAdd s x ↔ y ∈ s ∨ y = x := by
  unfold setAdd
  by_cases hx : x ∈ s
  · rw [if_pos hx]
    constructor
    · exact Or.inl
    · rintro (h | rfl)
      · exact h
      · exact hx
  · rw [if_neg hx]
    simp

theorem mem_involved_foldl (pairs : List (String × String)) (acc : List String) (x : String) :
    x ∈ pairs.foldl (fun acc p => setAdd (setAdd acc p.1) p.2) acc ↔
      x ∈ acc ∨ ∃ p ∈ pairs, x = p.1 ∨ x = p.2 := by
  induction pairs generalizing acc with
  | nil => simp
  | cons p rest ih =>
    rw [List.foldl_cons, ih]
    constructor
    · rintro (hmem | ⟨q, hq, hc⟩)
      · rcases mem_setAdd.mp hmem with hmem2 | rfl
        · rcases mem_setAdd.mp hmem2 with ha | rfl
          · exact Or.inl ha
          · exact Or.inr ⟨p, List.mem_cons_self _ _, Or.inl rfl⟩
        · exact Or.inr ⟨p, List.mem_cons_self _ _, Or.inr rfl⟩
      · exact Or.inr ⟨q, List.mem_cons_of_mem _ hq, hc⟩
    · rintro (ha | ⟨q, hq, hc⟩)
      · exact Or.inl (mem_setAdd.mpr (Or.inl (mem_setAdd.mpr (Or.inl ha))))
      · rcases List.mem_cons.mp hq with rfl | hq'
        · rcases hc with h1 | h2
          · exact Or.inl (mem_setAdd.mpr (Or.inl (mem_setAdd.mpr (Or.inr h1))))
          · exact Or.inl (mem_setAdd.mpr (Or.inr h2))
        · exact Or.inr ⟨q, hq', hc⟩

theorem mem_involved_classes {pairs : List (String × String)} {x : String} :
    x ∈ involved_classes pairs ↔ ∃ p ∈ pairs, x = p.1 ∨ x = p.2 := by
  unfold involved_classes
  rw [mem_involved_foldl]
  simp

theorem mem_pySorted {l : List String} {x : String} : x ∈ pySorted l ↔ x ∈ l :=
  (List.perm_insertionSort pyStrLeRel l).mem_iff

theorem classesInModuleAux_subset {g : InheritanceGraph} {m : String} {b : Bool}
    {ps : List (String × String)} {acc l : List String}
    (h : classesInModuleAux g m b ps acc = some l) :
    ∀ x ∈ l, x ∈ acc ∨ ∃ p ∈ ps, x = p.1 ∨ x = p.2 := by
  induction ps generalizing acc with
  | nil =>
    unfold classesInModuleAux at h
    injection h with h'
    subst h'
    exact fun x hx => Or.inl hx
  | cons p rest ih =>
    obtain ⟨superclass, subclass⟩ := p
    intro x hx
    unfold classesInModuleAux at h
    cases hm1 : dictGet g.class_modules superclass with
    | none => simp [hm1] at h
    | some m1 =>
      simp only [hm1] at h
      by_cases hc1 : m1 = m ∧ b = true
      · rw [if_pos hc1] at h
        rcases ih h x hx with hacc | ⟨q, hq, hc⟩
        · rcases mem_setAdd.mp hacc with hacc' | heq
          · exact Or.inl hacc'
          · exact Or.inr ⟨(superclass, subclass), List.mem_cons_self _ _, Or.inl heq⟩
        · exact Or.inr ⟨q, List.mem_cons_of_mem _ hq, hc⟩
      · rw [if_neg hc1] at h
        cases hm2 : dictGet g.class_modules subclass with
        | none => simp [hm2] at h
        | some m2 =>
          simp only [hm2] at h
          by_cases hc2 : m2 = m ∧ b = false
          · rw [if_pos hc2] at h
            rcases ih h x hx with hacc | ⟨q, hq, hc⟩
            · rcases mem_setAdd.mp hacc with hacc' | heq
              · exact Or.inl hacc'
              · exact Or.inr ⟨(superclass, subclass), List.mem_cons_self _ _, Or.inr heq⟩
            · exact Or.inr ⟨q, List.mem_cons_of_mem _ hq, hc⟩
          · rw [if_neg hc2] at h
            rcases ih h x hx with hacc | ⟨q, hq, hc⟩
            · exact Or.inl hacc
            · exact Or.inr ⟨q, List.mem_cons_of_mem _ hq, hc⟩

theorem mem_get_other_not_involved {g : InheritanceGraph} {m : String}
    {pairs : List (String × String)} {x : String}
    (h : x ∈ get_other_classes_in_module g m pairs) : x ∉ involved_classes pairs := by
  unfold get_other_classes_in_module at h
  rw [mem_pySorted, List.mem_filterMap] at h
  obtain ⟨e, _, hcond⟩ := h
  by_cases hc : e.2 = m ∧ e.1 ∉ involved_classes pairs
  · rw [if_pos hc] at hcond
    injection hcond with h'
    subst h'
    exact hc.2
  · rw [if_neg hc] at hcond
    exact absurd hcond (by simp)

/-- C7: within one report plan, the "other classes" list of a module is
disjoint from that module's superclass-role list and from its
subclass-role list for the same group of pairs. -/
theorem claim_C7_other_classes_disjoint (g : InheritanceGraph) (module_path : String)
    (pairs : List (String × String)) (sup subs : List String)
    (hsup : get_classes_in_module g module_path true pairs = some sup)
    (hsub : get_classes_in_module g module_path false pairs = some subs) :
    ∀ x ∈ get_other_classes_in_module g module_path pairs, x ∉ sup ∧ x ∉ subs := by
  intro x hx
  have hnotinv : x ∉ involved_classes pairs := mem_get_other_not_involved hx
  have hrole : ∀ (b : Bool) (l0 : List String),
      get_classes_in_module g module_path b pairs = some l0 → x ∉ l0 := by
    intro b l0 hl0 hxl0
    unfold get_classes_in_module at hl0
    cases haux : classesInModuleAux g module_path b pairs [] with
    | none => rw [haux] at hl0; exact absurd hl0 (by simp)
    | some l1 =>
      rw [haux] at hl0
      injection hl0 with h'
      subst h'
      rw [mem_pySorted] at hxl0
      rcases classesInModuleAux_subset haux x hxl0 with hemp | ⟨p, hp, hc⟩
      · cases hemp
      · exact hnotinv (mem_involved_classes.mpr ⟨p, hp, hc⟩)
  exact ⟨hrole true sup hsup, hrole false subs hsub⟩

theorem claim_C7_other_classes_disjoint_witness :
    "Z" ∈ get_other_classes_in_module reportGraph "m.py" [("B", "C")]
    ∧ "Z" ∉ ["B"] ∧ "Z" ∉ ["C"] :=
  ⟨by decide,
   claim_C7_other_classes_disjoint reportGraph "m.py" [("B", "C")] ["B"] ["C"]
     (by decide) (by decide) "Z" (by decide)⟩

theorem processUnits_append (acc : ClassInfoExtractor × List String)
    (l1 l2 : List SourceUnit) :
    processUnits acc (l1 ++ l2) = processUnits (processUnits acc l1) l2 := by
  induction l1 generalizing acc with
  | nil => rfl
  | cons u rest ih => exact ih (process_file u acc.1 acc.2)

theorem process_file_fst (u : SourceUnit) (ex : ClassInfoExtractor) (log log' : List String) :
    (process_file u ex log).1 = (process_file u ex log').1 := by
  unfold process_file
  cases u.parsed <;> rfl

theorem processUnits_fst_indep (us : List SourceUnit) (ex : ClassInfoExtractor)
    (log log' : List String) :
    (processUnits (ex, log) us).1 = (processUnits (ex, log') us).1 := by
  induction us generalizing ex log log' with
  | nil => rfl
  | cons u rest ih =>
    show (processUnits (process_file u ex log) rest).1
        = (processUnits (process_file u ex log') rest).1
    have h1 : process_file u ex log = ((process_file u ex log).1, (process_file u ex log).2) :=
      rfl
    have h2 : process_file u ex log' = ((process_file u ex log').1, (process_file u ex log').2) :=
      rfl
    rw [h1, h2, process_file_fst u ex log log']
    exact ih (process_file u ex log').1 (process_file u ex log).2 (process_file u ex log').2

theorem processUnits_log_extends (us : List SourceUnit) (ex : ClassInfoExtractor)
    (log : List String) :
    ∃ tail, (processUnits (ex, log) us).2 = log ++ tail := by
  induction us generalizing ex log with
  | nil => exact ⟨[], by simp [processUnits]⟩
  | cons u rest ih =>
    show ∃ tail, (processUnits (process_file u ex log) rest).2 = log ++ tail
    have heta : process_file u ex log = ((process_file u ex log).1, (process_file u ex log).2) :=
      rfl
    cases hp : u.parsed with
    | ok tree =>
      have hstep : (process_file u ex log).2 = log := by
        simp [process_file, hp]
      obtain ⟨tail, htail⟩ := ih (process_file u ex log).1 (process_file u ex log).2
      refine ⟨tail, ?_⟩
      rw [heta, htail, hstep]
    | error e =>
      have hstep : (process_file u ex log).2
          = log ++ ["Error processing " ++ u.path ++ ": " ++ e] := by
        simp [process_file, hp]
      obtain ⟨tail, htail⟩ := ih (process_file u ex log).1 (process_file u ex log).2
      refine ⟨["Error processing " ++ u.path ++ ": " ++ e] ++ tail, ?_⟩
      rw [heta, htail, hstep, List.append_assoc]

/-- C9: a unit whose parse raises contributes nothing to the extractor
(graph included), its identifier and message are logged, and every
report the run would produce without it is produced unchanged. -/
theorem claim_C9_parse_error_skipped (us1 us2 : List SourceUnit) (bad : SourceUnit)
    (msg : String) (hbad : bad.parsed = Except.error msg) :
    (process_codebase (us1 ++ bad :: us2)).1 = (process_codebase (us1 ++ us2)).1
    ∧ ("Error processing " ++ bad.path ++ ": " ++ msg) ∈ (process_codebase (us1 ++ bad :: us2)).2
    ∧ (∀ fuel, write_class_pairs (process_codebase (us1 ++ bad :: us2)).1.inheritance_graph fuel
        = write_class_pairs (process_codebase (us1 ++ us2)).1.inheritance_graph fuel) := by
  have hbadstep : ∀ ex log, process_file bad ex log =
      (ex, log ++ ["Error processing " ++ bad.path ++ ": " ++ msg]) := by
    intro ex log
    unfold process_file
    rw [hbad]
  have hfst : (process_codebase (us1 ++ bad :: us2)).1 = (process_codebase (us1 ++ us2)).1 := by
    unfold process_codebase
    rw [processUnits_append, processUnits_append]
    rcases hpre : processUnits (⟨newGraph, "", ""⟩, []) us1 with ⟨ex1, log1⟩
    show (processUnits (process_file bad ex1 log1) us2).1 = (processUnits (ex1, log1) us2).1
    rw [hbadstep]
    exact processUnits_fst_indep us2 ex1 _ log1
  refine ⟨hfst, ?_, fun fuel => by rw [hfst]⟩
  unfold process_codebase
  rw [processUnits_append]
  rcases hpre : processUnits (⟨newGraph, "", ""⟩, []) us1 with ⟨ex1, log1⟩
  show ("Error processing " ++ bad.path ++ ": " ++ msg)
      ∈ (processUnits (process_file bad ex1 log1) us2).2
  rw [hbadstep]
  obtain ⟨tail, htail⟩ := processUnits_log_extends us2 ex1
    (log1 ++ ["Error processing " ++ bad.path ++ ": " ++ msg])
  rw [htail]
  simp

theorem claim_C9_parse_error_skipped_witness :
    (process_codebase [badUnit, outerInnerUnit]).1 = (process_codebase [outerInnerUnit]).1
    ∧ ("Error processing " ++ badUnit.path ++ ": " ++ "invalid syntax")
        ∈ (process_codebase [badUnit, outerInnerUnit]).2
    ∧ (∀ fuel,
        write_class_pairs (process_codebase [badUnit, outerInnerUnit]).1.inheritance_graph fuel
          = write_class_pairs (process_codebase [outerInnerUnit]).1.inheritance_graph fuel) :=
  claim_C9_parse_error_skipped [] [outerInnerUnit] badUnit "invalid syntax" rfl

theorem orDefault_none_right {α : Type} (o : Option α) : orDefault o none = o := by
  cases o <;> rfl

theorem opsLookup_append {κ α : Type} [DecidableEq κ] (q : κ) (l1 l2 : List (κ × α)) :
    opsLookup q (l1 ++ l2) = orDefault (opsLookup q l2) (opsLookup q l1) := by
  induction l1 with
  | nil => exact (orDefault_none_right _).symm
  | cons e l1' ih =>
    obtain ⟨k, v⟩ := e
    have key : ∀ o1 o2 : Option α,
        (match orDefault o2 o1 with
          | some w => some w
          | none => if k = q then some v else none)
          = orDefault o2 (match o1 with
            | some w => some w
            | none => if k = q then some v else none) := by
      intro o1 o2
      cases o2 <;> cases o1 <;> rfl
    show (match opsLookup q (l1' ++ l2) with
      | some w => some w
      | none => if k = q then some v else none) = _
    rw [ih]
    exact key (opsLookup q l1') (opsLookup q l2)

theorem opsLookup_eq_none_of_not_mem {κ α : Type} [DecidableEq κ] {q : κ} {l : List (κ × α)}
    (h : q ∉ l.map Prod.fst) : opsLookup q l = none := by
  induction l with
  | nil => rfl
  | cons e rest ih =>
    obtain ⟨k, v⟩ := e
    have h' : q ∉ k :: rest.map Prod.fst := h
    show (match opsLookup q rest with
      | some w => some w
      | none => if k = q then some v else none) = none
    rw [ih (fun hm => h' (List.mem_cons_of_mem _ hm))]
    show (if k = q then some v else none) = none
    rw [if_neg (fun hk => h' (List.mem_cons.mpr (Or.inl hk.symm)))]

theorem opsLookup_isSome_of_mem {κ α : Type} [DecidableEq κ] {q : κ} {l : List (κ × α)}
    (h : q ∈ l.map Prod.fst) : ∃ w, opsLookup q l = some w := by
  induction l with
  | nil => cases h
  | cons e rest ih =>
    obtain ⟨k, v⟩ := e
    show ∃ w, (match opsLookup q rest with
      | some w => some w
      | none => if k = q then some v else none) = some w
    cases hr : opsLookup q rest with
    | some w => exact ⟨w, rfl⟩
    | none =>
      rcases List.mem_cons.mp (show q ∈ k :: rest.map Prod.fst from h) with heq | hmem
      · refine ⟨v, ?_⟩
        show (if k = q then some v else none) = some v
        rw [if_pos heq.symm]
      · obtain ⟨w, hw⟩ := ih hmem
        rw [hw] at hr
        exact absurd hr (by simp)

theorem opsLookup_map_const {κ α : Type} [DecidableEq κ] (q : κ) (names : List κ) (c : α) :
    opsLookup q (names.map (fun n => (n, c))) = if q ∈ names then some c else none := by
  induction names with
  | nil => simp [opsLookup]
  | cons n rest ih =>
    have key : ∀ o : Option α,
        (match o with
          | some w => some w
          | none => if n = q then some c else none)
          = orDefault o (if n = q then some c else none) := by
      intro o
      cases o <;> rfl
    show (match opsLookup q (rest.map (fun n => (n, c))) with
      | some w => some w
      | none => if n = q then some c else none) = _
    rw [key, ih]
    by_cases hmem : q ∈ rest
    · rw [if_pos hmem, if_pos (List.mem_cons_of_mem _ hmem)]
      rfl
    · rw [if_neg hmem]
      by_cases heq : n = q
      · rw [if_pos heq, if_pos (List.mem_cons.mpr (Or.inl heq.symm))]
        rfl
      · have hno : q ∉ n :: rest := by
          intro hc
          rcases List.mem_cons.mp hc with h1 | h2
          · exact heq h1.symm
          · exact hmem h2
        rw [if_neg heq, if_neg hno]
        rfl

theorem opsLookup_flatten_of_unique {κ α : Type} [DecidableEq κ]
    {blocks : List (List (κ × α))} {b : List (κ × α)} {q : κ}
    (hb : b ∈ blocks) (hq : q ∈ b.map Prod.fst)
    (hdisj : List.Pairwise (fun x y => ∀ k ∈ x.map Prod.fst, k ∉ y.map Prod.fst) blocks) :
    opsLookup q blocks.flatten = opsLookup q b := by
  induction blocks with
  | nil => cases hb
  | cons x rest ih =>
    rw [List.flatten_cons, opsLookup_append]
    have hpair := List.pairwise_cons.mp hdisj
    rcases List.mem_cons.mp hb with rfl | hb'
    · have hnone : opsLookup q rest.flatten = none := by
        apply opsLookup_eq_none_of_not_mem
        intro hmem
        rw [List.map_flatten, List.mem_flatten] at hmem
        obtain ⟨l, hl, hql⟩ := hmem
        rw [List.mem_map] at hl
        obtain ⟨blk, hblk, rfl⟩ := hl
        exact hpair.1 blk hblk q hq hql
      rw [hnone]
      rfl
    · obtain ⟨w, hw⟩ := opsLookup_isSome_of_mem (show q ∈ (rest.flatten).map Prod.fst by
        rw [List.map_flatten, List.mem_flatten]
        exact ⟨b.map Prod.fst, List.mem_map_of_mem _ hb', hq⟩)
      have hres : opsLookup q rest.flatten = opsLookup q b := ih hb' hpair.2
      rw [hw]
      show some w = opsLookup q b
      rw [← hw, hres]

theorem opsLookup_flatten_perm {κ α : Type} [DecidableEq κ]
    {blocks₁ blocks₂ : List (List (κ × α))} (hperm : blocks₁.Perm blocks₂) (q : κ)
    (hdisj : List.Pairwise (fun x y => ∀ k ∈ x.map Prod.fst, k ∉ y.map Prod.fst) blocks₁) :
    opsLookup q blocks₁.flatten = opsLookup q blocks₂.flatten := by
  have hsymm : ∀ {x y : List (κ × α)},
      (∀ k ∈ x.map Prod.fst, k ∉ y.map Prod.fst) →
        (∀ k ∈ y.map Prod.fst, k ∉ x.map Prod.fst) :=
    fun {x y} hxy k hky hkx => hxy k hkx hky
  induction hperm with
  | nil => rfl
  | cons x hp ih =>
    rw [List.flatten_cons, List.flatten_cons, opsLookup_append, opsLookup_append,
      ih (List.pairwise_cons.mp hdisj).2]
  | swap x y l =>
    rw [List.flatten_cons, List.flatten_cons, List.flatten_cons, List.flatten_cons,
      opsLookup_append, opsLookup_append, opsLookup_append, opsLookup_append]
    have hxy := (List.pairwise_cons.mp hdisj).1 x (List.mem_cons_self _ _)
    cases hl : opsLookup q l.flatten with
    | some w => rfl
    | none =>
      cases hx : opsLookup q x with
      | none =>
        cases hy : opsLookup q y with
        | none => rfl
        | some wy => rfl
      | some wx =>
        cases hy : opsLookup q y with
        | none => rfl
        | some wy =>
          exfalso
          have hqx : q ∈ x.map Prod.fst := by
            by_contra hq
            rw [opsLookup_eq_none_of_not_mem hq] at hx
            exact absurd hx (by simp)
          have hqy : q ∈ y.map Prod.fst := by
            by_contra hq
            rw [opsLookup_eq_none_of_not_mem hq] at hy
            exact absurd hy (by simp)
          exact hxy q hqy hqx
  | trans hp1 hp2 ih1 ih2 =>
    rw [ih1 hdisj, ih2 ((hp1.pairwise_iff hsymm).mp hdisj)]

theorem dictGet_dictInsert {κ α : Type} [DecidableEq κ] (k q : κ) (v : α) (m : List (κ × α)) :
    dictGet (dictInsert k v m) q = if k = q then some v else dictGet m q := by
  induction m with
  | nil =>
    show dictGet [(k, v)] q = _
    unfold dictGet
    by_cases hq : k = q
    · rw [if_pos hq, if_pos hq]
    · rw [if_neg hq, if_neg hq]
      rfl
  | cons e rest ih =>
    obtain ⟨k', v'⟩ := e
    show dictGet (if k' = k then (k, v) :: rest else (k', v') :: dictInsert k v rest) q = _
    by_cases hk : k' = k
    · rw [if_pos hk]
      show (if k = q then some v else dictGet rest q) = _
      by_cases hq : k = q
      · rw [if_pos hq, if_pos hq]
      · rw [if_neg hq, if_neg hq]
        show dictGet rest q = dictGet ((k', v') :: rest) q
        have hk'q : ¬ k' = q := fun hc => hq (hk ▸ hc)
        show dictGet rest q = if k' = q then some v' else dictGet rest q
        rw [if_neg hk'q]
    · rw [if_neg hk]
      show (if k' = q then some v' else dictGet (dictInsert k v rest) q) = _
      by_cases hk'q : k' = q
      · rw [if_pos hk'q]
        have hkq : ¬ k = q := fun hc => hk (hk'q.trans hc.symm)
        rw [if_neg hkq]
        show some v' = if k' = q then some v' else dictGet rest q
        rw [if_pos hk'q]
      · rw [if_neg hk'q, ih]
        by_cases hkq : k = q
        · rw [if_pos hkq, if_pos hkq]
        · rw [if_neg hkq, if_neg hkq]
          show dictGet rest q = if k' = q then some v' else dictGet rest q
          rw [if_neg hk'q]

theorem foldlInsert_lookup {κ α : Type} [DecidableEq κ] (ops : List (κ × α))
    (m : List (κ × α)) (q : κ) :
    dictGet (ops.foldl (fun acc e => dictInsert e.1 e.2 acc) m) q
      = orDefault (opsLookup q ops) (dictGet m q) := by
  induction ops generalizing m with
  | nil => rfl
  | cons e ops' ih =>
    obtain ⟨k, v⟩ := e
    rw [List.foldl_cons]
    rw [ih, dictGet_dictInsert]
    show orDefault (opsLookup q ops') _
      = orDefault (match opsLookup q ops' with
          | some w => some w
          | none => if k = q then some v else none) (dictGet m q)
    cases ho : opsLookup q ops' with
    | some w => rfl
    | none =>
      show (if k = q then some v else dictGet m q)
        = orDefault (if k = q then some v else none) (dictGet m q)
      by_cases hkq : k = q
      · rw [if_pos hkq, if_pos hkq]
        rfl
      · rw [if_neg hkq, if_neg hkq]
        rfl

theorem dictKeys_dictInsert {κ α : Type} [DecidableEq κ] (k : κ) (v : α) (m : List (κ × α)) :
    dictKeys (dictInsert k v m) = insAbsent (dictKeys m) k := by
  induction m with
  | nil => simp [dictInsert, dictKeys, insAbsent]
  | cons e rest ih =>
    obtain ⟨k', v'⟩ := e
    show dictKeys (if k' = k then (k, v) :: rest else (k', v') :: dictInsert k v rest) = _
    by_cases hk : k' = k
    · rw [if_pos hk]
      unfold insAbsent
      rw [if_pos (by rw [dictKeys_cons, ← hk]; exact List.mem_cons_self _ _)]
      show k :: dictKeys rest = k' :: dictKeys rest
      rw [hk]
    · rw [if_neg hk]
      rw [dictKeys_cons, dictKeys_cons, ih]
      unfold insAbsent
      by_cases hmem : k ∈ dictKeys rest
      · rw [if_pos hmem, if_pos (List.mem_cons_of_mem _ hmem)]
      · have hno : ¬ k ∈ ((k', v') : κ × α).1 :: dictKeys rest := by
          intro hc
          rcases List.mem_cons.mp hc with h1 | h2
          · exact hk h1.symm
          · exact hmem h2
        rw [if_neg hmem, if_neg hno]
        rfl

theorem foldlInsert_keys {κ α : Type} [DecidableEq κ] (ops : List (κ × α)) (m : List (κ × α)) :
    dictKeys (ops.foldl (fun acc e => dictInsert e.1 e.2 acc) m)
      = (ops.map Prod.fst).foldl insAbsent (dictKeys m) := by
  induction ops generalizing m with
  | nil => rfl
  | cons e ops' ih =>
    obtain ⟨k, v⟩ := e
    rw [List.foldl_cons, List.map_cons, List.foldl_cons, ih, dictKeys_dictInsert]

theorem insAbsent_foldl_nodup {κ : Type} [DecidableEq κ] (l : List κ) (ks : List κ)
    (h : ks.Nodup) : (l.foldl insAbsent ks).Nodup := by
  induction l generalizing ks with
  | nil => exact h
  | cons k l' ih =>
    rw [List.foldl_cons]
    refine ih _ ?_
    unfold insAbsent
    by_cases hmem : k ∈ ks
    · rw [if_pos hmem]; exact h
    · rw [if_neg hmem]
      simp [List.nodup_append, h, hmem]

theorem dedupF_cons {κ : Type} [DecidableEq κ] (k : κ) (rest : List κ) :
    dedupF (k :: rest) = k :: dedupF (rest.filter (fun x => x ≠ k)) := by
  rw [dedupF]

theorem insAbsent_foldl_eq {κ : Type} [DecidableEq κ] (l : List κ) (ks : List κ) :
    l.foldl insAbsent ks = ks ++ dedupF (l.filter (fun x => x ∉ ks)) := by
  suffices h : ∀ (n : Nat) (l ks : List κ), l.length = n →
      l.foldl insAbsent ks = ks ++ dedupF (l.filter (fun x => x ∉ ks)) from
    h l.length l ks rfl
  intro n
  induction n with
  | zero =>
    intro l ks hn
    rw [List.length_eq_zero] at hn
    subst hn
    simp [dedupF]
  | succ n ih =>
    intro l ks hn
    cases l with
    | nil => cases hn
    | cons k l' =>
      rw [List.foldl_cons]
      by_cases hmem : k ∈ ks
      · rw [show insAbsent ks k = ks from if_pos hmem]
        rw [ih l' ks (by simpa using hn)]
        have hfil : (k :: l').filter (fun x => x ∉ ks) = l'.filter (fun x => x ∉ ks) := by
          rw [List.filter_cons]
          rw [if_neg (by simp [hmem])]
        rw [hfil]
      · rw [show insAbsent ks k = ks ++ [k] from if_neg hmem]
        rw [ih l' (ks ++ [k]) (by simpa using hn)]
        have hfil : (k :: l').filter (fun x => x ∉ ks) = k :: l'.filter (fun x => x ∉ ks) := by
          rw [List.filter_cons]
          rw [if_pos (by simp [hmem])]
        rw [hfil, dedupF_cons, List.filter_filter]
        have hcong : l'.filter (fun x => decide (x ∉ ks ++ [k]))
            = l'.filter (fun x => decide (x ≠ k) && decide (x ∉ ks)) := by
          apply List.filter_congr
          intro x _
          by_cases hxk : x = k
          · simp [hxk]
          · by_cases hxks : x ∈ ks
            · simp [hxk, hxks]
            · simp [hxk, hxks]
        rw [hcong]
        simp

theorem filter_dedupF {κ : Type} [DecidableEq κ] (p : κ → Bool) (l : List κ) :
    (dedupF l).filter p = dedupF (l.filter p) := by
  suffices h : ∀ (n : Nat) (l : List κ), l.length = n →
      (dedupF l).filter p = dedupF (l.filter p) from h l.length l rfl
  intro n
  induction n using Nat.strong_induction_on with
  | _ n ih =>
    intro l hn
    cases l with
    | nil => simp [dedupF]
    | cons k rest =>
      rw [dedupF_cons]
      by_cases hpk : p k = true
      · rw [List.filter_cons]
        rw [if_pos hpk]
        have hfk : (k :: rest).filter p = k :: rest.filter p := by
          rw [List.filter_cons, if_pos hpk]
        rw [hfk, dedupF_cons]
        rw [ih (rest.filter (fun x => x ≠ k)).length
            (by
              rw [← hn]
              exact Nat.lt_of_le_of_lt (List.length_filter_le _ _) (Nat.lt_succ_self _))
            _ rfl]
        rw [List.filter_filter, List.filter_filter]
        have : rest.filter (fun x => p x && decide (x ≠ k))
            = rest.filter (fun x => decide (x ≠ k) && p x) := by
          apply List.filter_congr
          intro x _
          exact Bool.and_comm _ _
        rw [this]
      · rw [List.filter_cons]
        rw [if_neg hpk]
        have hfk : (k :: rest).filter p = rest.filter p := by
          rw [List.filter_cons, if_neg hpk]
        rw [hfk]
        rw [ih (rest.filter (fun x => x ≠ k)).length
            (by
              rw [← hn]
              exact Nat.lt_of_le_of_lt (List.length_filter_le _ _) (Nat.lt_succ_self _))
            _ rfl]
        rw [List.filter_filter]
        have : rest.filter (fun x => p x && decide (x ≠ k)) = rest.filter p := by
          apply List.filter_congr
          intro x _
          by_cases hxk : x = k
          · subst hxk
            simp [hpk]
          · simp [hxk]
        rw [this]

theorem dictGet_eq_none_iff {κ α : Type} [DecidableEq κ] (m : List (κ × α)) (q : κ) :
    dictGet m q = none ↔ q ∉ dictKeys m := by
  induction m with
  | nil => simp [dictGet, dictKeys]
  | cons e rest ih =>
    obtain ⟨k, v⟩ := e
    show (if k = q then some v else dictGet rest q) = none ↔ _
    rw [dictKeys_cons]
    by_cases hk : k = q
    · rw [if_pos hk]
      simp [hk]
    · rw [if_neg hk, ih]
      constructor
      · intro hq hc
        rcases List.mem_cons.mp hc with h1 | h2
        · exact hk h1.symm
        · exact hq h2
      · intro hq hc
        exact hq (List.mem_cons_of_mem _ hc)

theorem flatten_map_filter_of_nil {α β : Type} (l : List α) (f : α → List β) (P : α → Bool)
    (h : ∀ c ∈ l, P c = false → f c = []) :
    (l.map f).flatten = ((l.filter P).map f).flatten := by
  induction l with
  | nil => rfl
  | cons c rest ih =>
    rw [List.map_cons, List.flatten_cons, List.filter_cons]
    by_cases hP : P c = true
    · rw [if_pos hP, List.map_cons, List.flatten_cons,
        ih (fun x hx hPx => h x (List.mem_cons_of_mem _ hx) hPx)]
    · rw [if_neg hP, h c (List.mem_cons_self _ _) (by simpa using hP),
        ih (fun x hx hPx => h x (List.mem_cons_of_mem _ hx) hPx)]
      rfl

theorem filterMap_eq_filterMap_filter {α β : Type} (l : List α) (f : α → Option β)
    (Q : α → Bool) (h : ∀ x ∈ l, Q x = false → f x = none) :
    l.filterMap f = (l.filter Q).filterMap f := by
  induction l with
  | nil => rfl
  | cons x rest ih =>
    rw [List.filterMap_cons, List.filter_cons]
    by_cases hQ : Q x = true
    · rw [if_pos hQ, List.filterMap_cons,
        ih (fun y hy hQy => h y (List.mem_cons_of_mem _ hy) hQy)]
    · rw [if_neg hQ, h x (List.mem_cons_self _ _) (by simpa using hQ),
        ih (fun y hy hQy => h y (List.mem_cons_of_mem _ hy) hQy)]

theorem filter_filterMap_eq {α β : Type} (l : List α) (f : α → Option β) (p : β → Bool) :
    (l.filterMap f).filter p
      = l.filterMap (fun x => (f x).bind (fun y => if p y then some y else none)) := by
  induction l with
  | nil => rfl
  | cons x rest ih =>
    cases hf : f x with
    | none =>
      simp only [List.filterMap_cons, hf, Option.none_bind]
      exact ih
    | some y =>
      simp only [List.filterMap_cons, hf, Option.some_bind, List.filter_cons]
      by_cases hp : p y = true
      · simp only [hp, if_true]
        rw [ih]
      · have hp' : p y = false := by
          cases hpy : p y
          · rfl
          · exact absurd hpy hp
        simp only [hp', Bool.false_eq_true, if_false]
        rw [ih]

theorem filterMap_congr_fn {α β : Type} (l : List α) (f f' : α → Option β)
    (h : ∀ x ∈ l, f x = f' x) : l.filterMap f = l.filterMap f' := by
  induction l with
  | nil => rfl
  | cons x rest ih =>
    rw [List.filterMap_cons, List.filterMap_cons, h x (List.mem_cons_self _ _),
      ih (fun y hy => h y (List.mem_cons_of_mem _ hy))]

theorem flatten_eq_of_single_nonempty {α : Type} {b₁ b₂ : List (List α)} (h : b₁.Perm b₂)
    (hone : List.Pairwise (fun b c => b = [] ∨ c = []) b₁) : b₁.flatten = b₂.flatten := by
  have hsymm : ∀ {x y : List α}, (x = [] ∨ y = []) → (y = [] ∨ x = []) :=
    fun {x y} hh => hh.symm
  induction h with
  | nil => rfl
  | cons x hp ih =>
    rw [List.flatten_cons, List.flatten_cons, ih (List.pairwise_cons.mp hone).2]
  | swap x y l =>
    rw [List.flatten_cons, List.flatten_cons, List.flatten_cons, List.flatten_cons]
    rcases (List.pairwise_cons.mp hone).1 x (List.mem_cons_self _ _) with hy | hx
    · rw [hy]
      rfl
    · rw [hx]
      rfl
  | trans hp1 hp2 ih1 ih2 =>
    rw [ih1 hone, ih2 ((hp1.pairwise_iff hsymm).mp hone)]

theorem pySorted_eq_of_mem {l₁ l₂ : List String} (h₁ : l₁.Nodup) (h₂ : l₂.Nodup)
    (hm : ∀ x, x ∈ l₁ ↔ x ∈ l₂) : pySorted l₁ = pySorted l₂ := by
  have hperm : l₁.Perm l₂ := (List.perm_ext_iff_of_nodup h₁ h₂).mpr hm
  have hp : (pySorted l₁).Perm (pySorted l₂) :=
    (List.perm_insertionSort _ l₁).trans (hperm.trans (List.perm_insertionSort _ l₂).symm)
  exact List.eq_of_perm_of_sorted hp
    (List.sorted_insertionSort _ l₁) (List.sorted_insertionSort _ l₂)

mutual

theorem visitStmt_fields (ex : ClassInfoExtractor) (s : PyStmt) :
    (visitStmt ex s).current_module_path = ex.current_module_path
    ∧ (visitStmt ex s).current_module_content = ex.current_module_content
    ∧ (visitStmt ex s).inheritance_graph.direct_parents
        = (stmtRegs s).foldl (fun m e => dictInsert e.1 e.2 m)
            ex.inheritance_graph.direct_parents
    ∧ (visitStmt ex s).inheritance_graph.class_modules
        = (stmtRegs s).foldl (fun m e => dictInsert e.1 ex.current_module_path m)
            ex.inheritance_graph.class_modules
    ∧ (visitStmt ex s).inheritance_graph.module_contents
        = (stmtRegs s).foldl
            (fun m _ => dictInsert ex.current_module_path ex.current_module_content m)
            ex.inheritance_graph.module_contents := by
  cases s with
  | classDef name bases body =>
    have h := visitStmts_fields
      (ClassInfoExtractor.mk
        (add_class ex.inheritance_graph (get_full_class_name name)
          (extract_base_names bases)
          (astor_to_source (PyStmt.classDef name bases body))
          ex.current_module_path ex.current_module_content)
        ex.current_module_path ex.current_module_content) body
    obtain ⟨hp, hc, hdp, hcm, hmc⟩ := h
    refine ⟨hp, hc, ?_, ?_, ?_⟩
    · show (visitStmts _ body).inheritance_graph.direct_parents = _
      rw [hdp]
      rw [show stmtRegs (PyStmt.classDef name bases body)
        = (get_full_class_name name, extract_base_names bases) :: stmtRegsList body from rfl]
      rw [List.foldl_cons]
      rfl
    · show (visitStmts _ body).inheritance_graph.class_modules = _
      rw [hcm]
      rw [show stmtRegs (PyStmt.classDef name bases body)
        = (get_full_class_name name, extract_base_names bases) :: stmtRegsList body from rfl]
      rw [List.foldl_cons]
      rfl
    · show (visitStmts _ body).inheritance_graph.module_contents = _
      rw [hmc]
      rw [show stmtRegs (PyStmt.classDef name bases body)
        = (get_full_class_name name, extract_base_names bases) :: stmtRegsList body from rfl]
      rw [List.foldl_cons]
      rfl
  | otherStmt children =>
    exact visitStmts_fields ex children

theorem visitStmts_fields (ex : ClassInfoExtractor) (l : List PyStmt) :
    (visitStmts ex l).current_module_path = ex.current_module_path
    ∧ (visitStmts ex l).current_module_content = ex.current_module_content
    ∧ (visitStmts ex l).inheritance_graph.direct_parents
        = (stmtRegsList l).foldl (fun m e => dictInsert e.1 e.2 m)
            ex.inheritance_graph.direct_parents
    ∧ (visitStmts ex l).inheritance_graph.class_modules
        = (stmtRegsList l).foldl (fun m e => dictInsert e.1 ex.current_module_path m)
            ex.inheritance_graph.class_modules
    ∧ (visitStmts ex l).inheritance_graph.module_contents
        = (stmtRegsList l).foldl
            (fun m _ => dictInsert ex.current_module_path ex.current_module_content m)
            ex.inheritance_graph.module_contents := by
  cases l with
  | nil => exact ⟨rfl, rfl, rfl, rfl, rfl⟩
  | cons s rest =>
    obtain ⟨hp1, hc1, hdp1, hcm1, hmc1⟩ := visitStmt_fields ex s
    obtain ⟨hp2, hc2, hdp2, hcm2, hmc2⟩ := visitStmts_fields (visitStmt ex s) rest
    refine ⟨hp2.trans hp1, hc2.trans hc1, ?_, ?_, ?_⟩
    · show (visitStmts (visitStmt ex s) rest).inheritance_graph.direct_parents = _
      rw [hdp2, hdp1,
        show stmtRegsList (s :: rest) = stmtRegs s ++ stmtRegsList rest from rfl,
        List.foldl_append]
    · show (visitStmts (visitStmt ex s) rest).inheritance_graph.class_modules = _
      rw [hcm2, hp1, hcm1,
        show stmtRegsList (s :: rest) = stmtRegs s ++ stmtRegsList rest from rfl,
        List.foldl_append]
    · show (visitStmts (visitStmt ex s) rest).inheritance_graph.module_contents = _
      rw [hmc2, hp1, hc1, hmc1,
        show stmtRegsList (s :: rest) = stmtRegs s ++ stmtRegsList rest from rfl,
        List.foldl_append]

end

theorem foldl_insert_const_snd {κ α β : Type} [DecidableEq κ] (ops : List (κ × α)) (c : β)
    (m : List (κ × β)) :
    ops.foldl (fun m e => dictInsert e.1 c m) m
      = (ops.map (fun e => (e.1, c))).foldl (fun m e => dictInsert e.1 e.2 m) m := by
  induction ops generalizing m with
  | nil => rfl
  | cons e rest ih => exact ih _

theorem foldl_insert_const_both {κ α : Type} [DecidableEq κ] {β : Type} (ops : List β)
    (k : κ) (c : α) (m : List (κ × α)) :
    ops.foldl (fun m _ => dictInsert k c m) m
      = (ops.map (fun _ => (k, c))).foldl (fun m e => dictInsert e.1 e.2 m) m := by
  induction ops generalizing m with
  | nil => rfl
  | cons e rest ih => exact ih _

theorem processUnits_graph_fields (us : List SourceUnit) (ex : ClassInfoExtractor)
    (log : List String) :
    (processUnits (ex, log) us).1.inheritance_graph.direct_parents
      = ((us.map unitParentOps).flatten).foldl (fun m e => dictInsert e.1 e.2 m)
          ex.inheritance_graph.direct_parents
    ∧ (processUnits (ex, log) us).1.inheritance_graph.class_modules
      = ((us.map unitModOps).flatten).foldl (fun m e => dictInsert e.1 e.2 m)
          ex.inheritance_graph.class_modules
    ∧ (processUnits (ex, log) us).1.inheritance_graph.module_contents
      = ((us.map unitContentOps).flatten).foldl (fun m e => dictInsert e.1 e.2 m)
          ex.inheritance_graph.module_contents := by
  induction us generalizing ex log with
  | nil => exact ⟨rfl, rfl, rfl⟩
  | cons u rest ih =>
    show (processUnits (process_file u ex log) rest).1.inheritance_graph.direct_parents = _
      ∧ (processUnits (process_file u ex log) rest).1.inheritance_graph.class_modules = _
      ∧ (processUnits (process_file u ex log) rest).1.inheritance_graph.module_contents = _
    cases hp : u.parsed with
    | error e =>
      have hpf : process_file u ex log
          = (ex, log ++ ["Error processing " ++ u.path ++ ": " ++ e]) := by
        unfold process_file
        rw [hp]
      have hops : unitParentOps u = [] := by unfold unitParentOps; rw [hp]
      have hmod : unitModOps u = [] := by unfold unitModOps unitNames; rw [hops]; rfl
      have hcont : unitContentOps u = [] := by unfold unitContentOps unitNames; rw [hops]; rfl
      rw [hpf]
      obtain ⟨h1, h2, h3⟩ := ih ex (log ++ ["Error processing " ++ u.path ++ ": " ++ e])
      refine ⟨?_, ?_, ?_⟩
      · rw [h1, List.map_cons, List.flatten_cons, hops]
        rfl
      · rw [h2, List.map_cons, List.flatten_cons, hmod]
        rfl
      · rw [h3, List.map_cons, List.flatten_cons, hcont]
        rfl
    | ok tree =>
      have hpf : process_file u ex log
          = (visitStmts (ClassInfoExtractor.mk ex.inheritance_graph u.path u.content) tree,
              log) := by
        unfold process_file
        rw [hp]
      have hops : unitParentOps u = stmtRegsList tree := by unfold unitParentOps; rw [hp]
      rw [hpf]
      obtain ⟨h1, h2, h3⟩ :=
        ih (visitStmts (ClassInfoExtractor.mk ex.inheritance_graph u.path u.content) tree) log
      obtain ⟨hvp, hvc, hvdp, hvcm, hvmc⟩ :=
        visitStmts_fields (ClassInfoExtractor.mk ex.inheritance_graph u.path u.content) tree
      refine ⟨?_, ?_, ?_⟩
      · rw [h1, hvdp, List.map_cons, List.flatten_cons, List.foldl_append, hops]
      · rw [h2, hvcm, List.map_cons, List.flatten_cons, List.foldl_append]
        rw [show unitModOps u = (stmtRegsList tree).map (fun e => (e.1, u.path)) from by
          unfold unitModOps unitNames
          rw [hops, List.map_map]
          rfl]
        rw [foldl_insert_const_snd]
      · rw [h3, hvmc, List.map_cons, List.flatten_cons, List.foldl_append]
        rw [show unitContentOps u = (stmtRegsList tree).map (fun _ => (u.path, u.content)) from by
          unfold unitContentOps unitNames
          rw [hops, List.map_map]
          rfl]
        rw [foldl_insert_const_both]

theorem anyCheck_congr {f f' : String → Option Bool} {ps : List String}
    (h : ∀ p ∈ ps, f p = f' p) : anyCheck f ps = anyCheck f' ps := by
  induction ps with
  | nil => rfl
  | cons p rest ih =>
    show (match f p with
      | none => none
      | some true => some true
      | some false => anyCheck f rest) = (match f' p with
      | none => none
      | some true => some true
      | some false => anyCheck f' rest)
    rw [h p (List.mem_cons_self _ _)]
    cases f' p with
    | none => rfl
    | some b =>
      cases b with
      | true => rfl
      | false => exact ih (fun q hq => h q (List.mem_cons_of_mem _ hq))

theorem is_subclass_congr {g₁ g₂ : InheritanceGraph}
    (h : ∀ q, dictGet g₁.direct_parents q = dictGet g₂.direct_parents q)
    (fuel : Nat) (c a : String) : is_subclass g₁ fuel c a = is_subclass g₂ fuel c a := by
  induction fuel generalizing c with
  | zero => rfl
  | succ fuel ih =>
    by_cases hca : c = a
    · subst hca
      rw [is_subclass_self, is_subclass_self]
    · cases hget : dictGet g₂.direct_parents c with
      | none =>
        rw [is_subclass_unknown fuel hca ((h c).trans hget), is_subclass_unknown fuel hca hget]
      | some ds =>
        by_cases hmem : a ∈ ds
        · rw [is_subclass_parent fuel hca ((h c).trans hget) hmem,
            is_subclass_parent fuel hca hget hmem]
        · rw [is_subclass_rec fuel hca ((h c).trans hget) hmem,
            is_subclass_rec fuel hca hget hmem]
          exact anyCheck_congr (fun p _ => ih p)

theorem pairEmit_congr {g₁ g₂ : InheritanceGraph}
    (h : ∀ q, dictGet g₁.direct_parents q = dictGet g₂.direct_parents q)
    (fuel : Nat) (c pp : String) : pairEmit g₁ fuel c pp = pairEmit g₂ fuel c pp := by
  unfold pairEmit
  rw [is_subclass_congr h]

theorem pairKey_congr {g₁ g₂ : InheritanceGraph}
    (h : ∀ q, dictGet g₁.class_modules q = dictGet g₂.class_modules q)
    (p : String × String) : pairKey g₁ p = pairKey g₂ p := by
  unfold pairKey
  rw [h, h]

theorem classesInModuleAux_congr {g₁ g₂ : InheritanceGraph}
    (h : ∀ q, dictGet g₁.class_modules q = dictGet g₂.class_modules q)
    (m : String) (b : Bool) (ps : List (String × String)) (acc : List String) :
    classesInModuleAux g₁ m b ps acc = classesInModuleAux g₂ m b ps acc := by
  induction ps generalizing acc with
  | nil => rfl
  | cons p rest ih =>
    obtain ⟨superclass, subclass⟩ := p
    show (match dictGet g₁.class_modules superclass with
      | none => none
      | some m1 =>
        if m1 = m ∧ b = true then classesInModuleAux g₁ m b rest (setAdd acc superclass)
        else
          match dictGet g₁.class_modules subclass with
          | none => none
          | some m2 =>
            if m2 = m ∧ b = false then classesInModuleAux g₁ m b rest (setAdd acc subclass)
            else classesInModuleAux g₁ m b rest acc)
      = (match dictGet g₂.class_modules superclass with
      | none => none
      | some m1 =>
        if m1 = m ∧ b = true then classesInModuleAux g₂ m b rest (setAdd acc superclass)
        else
          match dictGet g₂.class_modules subclass with
          | none => none
          | some m2 =>
            if m2 = m ∧ b = false then classesInModuleAux g₂ m b rest (setAdd acc subclass)
            else classesInModuleAux g₂ m b rest acc)
    rw [h superclass, h subclass]
    cases dictGet g₂.class_modules superclass with
    | none => rfl
    | some m1 =>
      show (if m1 = m ∧ b = true then classesInModuleAux g₁ m b rest (setAdd acc superclass)
        else match dictGet g₂.class_modules subclass with
          | none => none
          | some m2 =>
            if m2 = m ∧ b = false then classesInModuleAux g₁ m b rest (setAdd acc subclass)
            else classesInModuleAux g₁ m b rest acc)
        = (if m1 = m ∧ b = true then classesInModuleAux g₂ m b rest (setAdd acc superclass)
        else match dictGet g₂.class_modules subclass with
          | none => none
          | some m2 =>
            if m2 = m ∧ b = false then classesInModuleAux g₂ m b rest (setAdd acc subclass)
            else classesInModuleAux g₂ m b rest acc)
      by_cases hc1 : m1 = m ∧ b = true
      · rw [if_pos hc1, if_pos hc1]
        exact ih _
      · rw [if_neg hc1, if_neg hc1]
        cases dictGet g₂.class_modules subclass with
        | none => rfl
        | some m2 =>
          show (if m2 = m ∧ b = false then classesInModuleAux g₁ m b rest (setAdd acc subclass)
            else classesInModuleAux g₁ m b rest acc)
            = (if m2 = m ∧ b = false then classesInModuleAux g₂ m b rest (setAdd acc subclass)
            else classesInModuleAux g₂ m b rest acc)
          by_cases hc2 : m2 = m ∧ b = false
          · rw [if_pos hc2, if_pos hc2]
            exact ih _
          · rw [if_neg hc2, if_neg hc2]
            exact ih _

theorem get_classes_in_module_congr {g₁ g₂ : InheritanceGraph}
    (h : ∀ q, dictGet g₁.class_modules q = dictGet g₂.class_modules q)
    (m : String) (b : Bool) (ps : List (String × String)) :
    get_classes_in_module g₁ m b ps = get_classes_in_module g₂ m b ps := by
  unfold get_classes_in_module
  rw [classesInModuleAux_congr h]

theorem mem_other_filterMap {g : InheritanceGraph} {m : String}
    {pairs : List (String × String)} {x : String}
    (hnd : (dictKeys g.class_modules).Nodup) :
    (x ∈ g.class_modules.filterMap (fun e =>
        if e.2 = m ∧ e.1 ∉ involved_classes pairs then some e.1 else none))
      ↔ (dictGet g.class_modules x = some m ∧ x ∉ involved_classes pairs) := by
  rw [List.mem_filterMap]
  constructor
  · rintro ⟨e, he, hcond⟩
    by_cases hc : e.2 = m ∧ e.1 ∉ involved_classes pairs
    · rw [if_pos hc] at hcond
      injection hcond with hx
      subst hx
      obtain ⟨e1, e2⟩ := e
      refine ⟨?_, hc.2⟩
      have hsome := dictGet_eq_some_of_mem hnd he
      rw [hsome]
      exact congrArg some hc.1
    · rw [if_neg hc] at hcond
      exact absurd hcond (by simp)
  · rintro ⟨hget, hinv⟩
    refine ⟨(x, m), mem_of_dictGet_eq_some hget, ?_⟩
    rw [if_pos ⟨rfl, hinv⟩]

theorem other_filterMap_nodup_list {m : String} {pairs : List (String × String)}
    {l : List (String × String)} (hnd : (dictKeys l).Nodup) :
    (l.filterMap (fun e =>
      if e.2 = m ∧ e.1 ∉ involved_classes pairs then some e.1 else none)).Nodup := by
  induction l with
  | nil => exact List.nodup_nil
  | cons e rest ih =>
    rw [dictKeys_cons] at hnd
    rw [List.filterMap_cons]
    have hsub : ∀ y, y ∈ rest.filterMap (fun e =>
        if e.2 = m ∧ e.1 ∉ involved_classes pairs then some e.1 else none) →
        y ∈ dictKeys rest := by
      intro y hy
      rw [List.mem_filterMap] at hy
      obtain ⟨e', he', hcond⟩ := hy
      by_cases hc : e'.2 = m ∧ e'.1 ∉ involved_classes pairs
      · rw [if_pos hc] at hcond
        injection hcond with hx
        subst hx
        exact List.mem_map_of_mem _ he'
      · rw [if_neg hc] at hcond
        exact absurd hcond (by simp)
    by_cases hc : e.2 = m ∧ e.1 ∉ involved_classes pairs
    · rw [if_pos hc]
      rw [List.nodup_cons]
      exact ⟨fun hmem => (List.nodup_cons.mp hnd).1 (hsub _ hmem),
        ih (List.nodup_cons.mp hnd).2⟩
    · rw [if_neg hc]
      exact ih (List.nodup_cons.mp hnd).2

theorem other_filterMap_nodup {g : InheritanceGraph} {m : String}
    {pairs : List (String × String)} (hnd : (dictKeys g.class_modules).Nodup) :
    (g.class_modules.filterMap (fun e =>
      if e.2 = m ∧ e.1 ∉ involved_classes pairs then some e.1 else none)).Nodup :=
  other_filterMap_nodup_list hnd

theorem get_other_classes_in_module_congr {g₁ g₂ : InheritanceGraph}
    (h : ∀ q, dictGet g₁.class_modules q = dictGet g₂.class_modules q)
    (hnd₁ : (dictKeys g₁.class_modules).Nodup) (hnd₂ : (dictKeys g₂.class_modules).Nodup)
    (m : String) (pairs : List (String × String)) :
    get_other_classes_in_module g₁ m pairs = get_other_classes_in_module g₂ m pairs := by
  unfold get_other_classes_in_module
  apply pySorted_eq_of_mem (other_filterMap_nodup hnd₁) (other_filterMap_nodup hnd₂)
  intro x
  rw [mem_other_filterMap hnd₁, mem_other_filterMap hnd₂, h]

theorem render_report_congr {g₁ g₂ : InheritanceGraph}
    (hcm : ∀ q, dictGet g₁.class_modules q = dictGet g₂.class_modules q)
    (hmc : ∀ q, dictGet g₁.module_contents q = dictGet g₂.module_contents q)
    (hnd₁ : (dictKeys g₁.class_modules).Nodup) (hnd₂ : (dictKeys g₂.class_modules).Nodup)
    (mA mD : String) (ps : List (String × String)) :
    render_report g₁ mA mD ps = render_report g₂ mA mD ps := by
  unfold render_report
  rw [get_classes_in_module_congr hcm, get_classes_in_module_congr hcm,
    get_classes_in_module_congr hcm,
    get_other_classes_in_module_congr hcm hnd₁ hnd₂ mA,
    get_other_classes_in_module_congr hcm hnd₁ hnd₂ mD,
    hmc mA, hmc mD]

theorem pairKey_eq_some {g : InheritanceGraph} {p : String × String} {k : String × String}
    (h : pairKey g p = some k) :
    dictGet g.class_modules p.1 = some k.1 ∧ dictGet g.class_modules p.2 = some k.2 := by
  unfold pairKey at h
  cases h1 : dictGet g.class_modules p.1 with
  | none => rw [h1] at h; exact absurd h (by simp)
  | some m1 =>
    cases h2 : dictGet g.class_modules p.2 with
    | none => rw [h1, h2] at h; exact absurd h (by simp)
    | some m2 =>
      rw [h1, h2] at h
      injection h with h'
      rw [← h']
      exact ⟨rfl, rfl⟩

theorem emitInGroup_eq (g : InheritanceGraph) (fuel : Nat) (k : String × String) (c : String) :
    (fun x => (pairEmit g fuel c x).bind
        (fun y => if decide (pairKey g y = some k) = true then some y else none))
      = emitInGroup g fuel k c := by
  funext x
  unfold emitInGroup
  congr 1
  funext y
  simp

theorem emitInGroup_none_of_col {g : InheritanceGraph} {fuel : Nat} {k : String × String}
    {c pp : String} (hget : ¬ dictGet g.class_modules pp = some k.1) :
    emitInGroup g fuel k c pp = none := by
  unfold emitInGroup
  cases hemit : pairEmit g fuel c pp with
  | none => rfl
  | some pr =>
    have hpr := (pairEmit_eq_some hemit).1
    subst hpr
    rw [Option.some_bind]
    rw [if_neg ?_]
    intro hkey
    exact hget (pairKey_eq_some hkey).1

theorem emitInGroup_none_of_row {g : InheritanceGraph} {fuel : Nat} {k : String × String}
    {c pp : String} (hget : ¬ dictGet g.class_modules c = some k.2) :
    emitInGroup g fuel k c pp = none := by
  unfold emitInGroup
  cases hemit : pairEmit g fuel c pp with
  | none => rfl
  | some pr =>
    have hpr := (pairEmit_eq_some hemit).1
    subst hpr
    rw [Option.some_bind]
    rw [if_neg ?_]
    intro hkey
    exact hget (pairKey_eq_some hkey).2

theorem childList_filter_eq (g : InheritanceGraph) (fuel : Nat) (keysL : List String)
    (c : String) (k : String × String) :
    ((keysL.filterMap (pairEmit g fuel c)).filter (fun p => pairKey g p = some k))
      = (keysL.filter (fun pp => dictGet g.class_modules pp = some k.1)).filterMap
          (emitInGroup g fuel k c) := by
  rw [filter_filterMap_eq, emitInGroup_eq]
  apply filterMap_eq_filterMap_filter
  intro pp _ hQ
  have hget : ¬ dictGet g.class_modules pp = some k.1 := by simpa using hQ
  exact emitInGroup_none_of_col hget

theorem childList_filter_nil (g : InheritanceGraph) (fuel : Nat) (keysL : List String)
    (c : String) (k : String × String) (hc : ¬ dictGet g.class_modules c = some k.2) :
    ((keysL.filterMap (pairEmit g fuel c)).filter (fun p => pairKey g p = some k)) = [] := by
  rw [filter_filterMap_eq, emitInGroup_eq]
  rw [List.filterMap_eq_nil_iff]
  intro pp _
  exact emitInGroup_none_of_row hc

theorem pairs_filter_eq_canonical {g : InheritanceGraph} {fuel : Nat}
    {pairs : List (String × String)} (hap : get_all_pairs g fuel = some pairs)
    (k : String × String) :
    pairs.filter (fun p => pairKey g p = some k)
      = (((dictKeys g.direct_parents).filter
            (fun c => dictGet g.class_modules c = some k.2)).map
          (fun c => ((dictKeys g.direct_parents).filter
              (fun pp => dictGet g.class_modules pp = some k.1)).filterMap
            (emitInGroup g fuel k c))).flatten := by
  unfold get_all_pairs at hap
  rw [allPairsAux_eq hap, List.filter_flatten, List.map_map]
  rw [flatten_map_filter_of_nil _ _ (fun c => dictGet g.class_modules c = some k.2) ?_]
  · apply congrArg
    apply List.map_congr_left
    intro c _
    exact childList_filter_eq g fuel (dictKeys g.direct_parents) c k
  · intro c _ hP
    have hc : ¬ dictGet g.class_modules c = some k.2 := by simpa using hP
    exact childList_filter_nil g fuel (dictKeys g.direct_parents) c k hc

/-- A `(key, list)` entry of a successful grouping is exactly the
(nonempty) enumeration-order filter of the pairs with that key. -/
theorem group_pairs_entry_iff {g : InheritanceGraph} {pairs : List (String × String)}
    {groups : List ((String × String) × List (String × String))}
    (hg : group_pairs g pairs = some groups) (k : String × String)
    (l : List (String × String)) :
    (k, l) ∈ groups ↔
      (l = pairs.filter (fun p => pairKey g p = some k) ∧ l ≠ []) := by
  have hnd : (dictKeys groups).Nodup := groupPairsAux_nodup_keys hg (by simp [dictKeys])
  have hlook : dictGet groups k =
      if pairs.filter (fun p => pairKey g p = some k) = [] then none
      else some (pairs.filter (fun p => pairKey g p = some k)) := by
    have h := groupPairsAux_lookup hg k
    simpa [dictGet] using h
  constructor
  · intro hmem
    have hsome := dictGet_eq_some_of_mem hnd hmem
    rw [hlook] at hsome
    by_cases hemp : pairs.filter (fun p => pairKey g p = some k) = []
    · rw [if_pos hemp] at hsome
      exact absurd hsome (by simp)
    · rw [if_neg hemp] at hsome
      have heq := Option.some_inj.mp hsome
      exact ⟨heq.symm, heq.symm ▸ hemp⟩
  · rintro ⟨rfl, hne⟩
    have hget : dictGet groups k
        = some (pairs.filter (fun p => pairKey g p = some k)) := by
      rw [hlook, if_neg hne]
    exact mem_of_dictGet_eq_some hget

theorem writeGroups_mem {g : InheritanceGraph}
    {groups : List ((String × String) × List (String × String))}
    {out : List (String × String)} (h : writeGroups g groups = some out)
    (fname content : String) :
    (fname, content) ∈ out ↔ ∃ mA mD first rest',
      ((mA, mD), first :: rest') ∈ groups
      ∧ render_report g mA mD (first :: rest') = some content
      ∧ fname = first.1 ++ "." ++ first.2 ++ ".txt" := by
  induction groups generalizing out with
  | nil =>
    unfold writeGroups at h
    injection h with h'
    subst h'
    simp
  | cons e rest ih =>
    obtain ⟨⟨mA0, mD0⟩, ps⟩ := e
    unfold writeGroups at h
    cases ps with
    | nil => exact absurd h (by simp)
    | cons first0 tail0 =>
      cases hrend : render_report g mA0 mD0 (first0 :: tail0) with
      | none => rw [hrend] at h; exact absurd h (by simp)
      | some content0 =>
        rw [hrend] at h
        cases hrest : writeGroups g rest with
        | none => rw [hrest] at h; exact absurd h (by simp)
        | some out' =>
          rw [hrest] at h
          injection h with h'
          subst h'
          rw [List.mem_cons]
          constructor
          · rintro (heq | hmem)
            · rw [Prod.mk.injEq] at heq
              exact ⟨mA0, mD0, first0, tail0, List.mem_cons_self _ _,
                heq.2 ▸ hrend, heq.1⟩
            · obtain ⟨mA, mD, first, rest', hmem', hrend', hfn⟩ := (ih hrest).mp hmem
              exact ⟨mA, mD, first, rest', List.mem_cons_of_mem _ hmem', hrend', hfn⟩
          · rintro ⟨mA, mD, first, rest', hmem', hrend', hfn⟩
            rcases List.mem_cons.mp hmem' with heq | hmem''
            · left
              have h1 : (mA, mD) = (mA0, mD0) := congrArg Prod.fst heq
              have h2 : first :: rest' = first0 :: tail0 := congrArg Prod.snd heq
              injection h2 with hf ht
              rw [Prod.mk.injEq] at h1
              rw [Prod.mk.injEq]
              constructor
              · rw [hfn, hf]
              · rw [h1.1, h1.2, hf, ht] at hrend'
                rw [hrend'] at hrend
                exact Option.some_inj.mp hrend
            · right
              exact (ih hrest).mpr ⟨mA, mD, first, rest', hmem'', hrend', hfn⟩

theorem unitModOps_keys (u : SourceUnit) : (unitModOps u).map Prod.fst = unitNames u := by
  unfold unitModOps
  rw [List.map_map]
  conv_rhs => rw [← List.map_id (unitNames u)]
  apply List.map_congr_left
  intro n _
  rfl

theorem unitContentOps_keys (u : SourceUnit) :
    ∀ k ∈ (unitContentOps u).map Prod.fst, k = u.path := by
  intro k hk
  unfold unitContentOps at hk
  rw [List.map_map] at hk
  rw [List.mem_map] at hk
  obtain ⟨n, _, rfl⟩ := hk
  rfl

theorem parentOps_blocks_disjoint (us : List SourceUnit)
    (hnames : List.Pairwise (fun u v => ∀ n, n ∈ unitNames u → n ∉ unitNames v) us) :
    List.Pairwise (fun x y => ∀ k ∈ x.map Prod.fst, k ∉ y.map Prod.fst)
      (us.map unitParentOps) := by
  rw [List.pairwise_map]
  exact hnames

theorem modOps_blocks_disjoint (us : List SourceUnit)
    (hnames : List.Pairwise (fun u v => ∀ n, n ∈ unitNames u → n ∉ unitNames v) us) :
    List.Pairwise (fun x y => ∀ k ∈ x.map Prod.fst, k ∉ y.map Prod.fst)
      (us.map unitModOps) := by
  rw [List.pairwise_map]
  refine hnames.imp ?_
  intro u v huv k hk1 hk2
  rw [unitModOps_keys] at hk1 hk2
  exact huv k hk1 hk2

theorem contentOps_blocks_disjoint (us : List SourceUnit)
    (hpaths : (us.map SourceUnit.path).Nodup) :
    List.Pairwise (fun x y => ∀ k ∈ x.map Prod.fst, k ∉ y.map Prod.fst)
      (us.map unitContentOps) := by
  rw [List.pairwise_map]
  have hp : List.Pairwise (fun u v => u.path ≠ v.path) us := List.pairwise_map.mp hpaths
  refine hp.imp ?_
  intro u v huv k hk1 hk2
  rw [unitContentOps_keys u k hk1] at hk2
  exact huv (unitContentOps_keys v u.path hk2)

theorem run_dp_lookup (us : List SourceUnit) (q : String) :
    dictGet (runGraph us).direct_parents q = opsLookup q ((us.map unitParentOps).flatten) := by
  have h := (processUnits_graph_fields us ⟨newGraph, "", ""⟩ []).1
  show dictGet (processUnits (⟨newGraph, "", ""⟩, []) us).1.inheritance_graph.direct_parents q = _
  rw [h, foldlInsert_lookup]
  exact orDefault_none_right _

theorem run_cm_lookup (us : List SourceUnit) (q : String) :
    dictGet (runGraph us).class_modules q = opsLookup q ((us.map unitModOps).flatten) := by
  have h := (processUnits_graph_fields us ⟨newGraph, "", ""⟩ []).2.1
  show dictGet (processUnits (⟨newGraph, "", ""⟩, []) us).1.inheritance_graph.class_modules q = _
  rw [h, foldlInsert_lookup]
  exact orDefault_none_right _

theorem run_mc_lookup (us : List SourceUnit) (q : String) :
    dictGet (runGraph us).module_contents q
      = opsLookup q ((us.map unitContentOps).flatten) := by
  have h := (processUnits_graph_fields us ⟨newGraph, "", ""⟩ []).2.2
  show dictGet (processUnits (⟨newGraph, "", ""⟩, []) us).1.inheritance_graph.module_contents q
    = _
  rw [h, foldlInsert_lookup]
  exact orDefault_none_right _

theorem run_lookups_perm (us₁ us₂ : List SourceUnit) (hperm : us₁.Perm us₂)
    (hnames : List.Pairwise (fun u v => ∀ n, n ∈ unitNames u → n ∉ unitNames v) us₁)
    (hpaths : (us₁.map SourceUnit.path).Nodup) :
    (∀ q, dictGet (runGraph us₁).direct_parents q = dictGet (runGraph us₂).direct_parents q)
    ∧ (∀ q, dictGet (runGraph us₁).class_modules q = dictGet (runGraph us₂).class_modules q)
    ∧ (∀ q, dictGet (runGraph us₁).module_contents q
        = dictGet (runGraph us₂).module_contents q) := by
  refine ⟨fun q => ?_, fun q => ?_, fun q => ?_⟩
  · rw [run_dp_lookup, run_dp_lookup]
    exact opsLookup_flatten_perm (hperm.map unitParentOps) q (parentOps_blocks_disjoint us₁ hnames)
  · rw [run_cm_lookup, run_cm_lookup]
    exact opsLookup_flatten_perm (hperm.map unitModOps) q (modOps_blocks_disjoint us₁ hnames)
  · rw [run_mc_lookup, run_mc_lookup]
    exact opsLookup_flatten_perm (hperm.map unitContentOps) q
      (contentOps_blocks_disjoint us₁ hpaths)

theorem run_cm_keys_nodup (us : List SourceUnit) :
    (dictKeys (runGraph us).class_modules).Nodup := by
  have h := (processUnits_graph_fields us ⟨newGraph, "", ""⟩ []).2.1
  show (dictKeys (processUnits (⟨newGraph, "", ""⟩, []) us).1.inheritance_graph.class_modules).Nodup
  rw [h, foldlInsert_keys]
  exact insAbsent_foldl_nodup _ _ List.nodup_nil

theorem run_keys_eq_dedup (us : List SourceUnit) :
    dictKeys (runGraph us).direct_parents = dedupF ((us.map unitNames).flatten) := by
  have h := (processUnits_graph_fields us ⟨newGraph, "", ""⟩ []).1
  show dictKeys (processUnits (⟨newGraph, "", ""⟩, []) us).1.inheritance_graph.direct_parents = _
  rw [h, foldlInsert_keys, insAbsent_foldl_eq]
  have hfil : (((us.map unitParentOps).flatten).map Prod.fst).filter
      (fun x => x ∉ (dictKeys (⟨[], [], [], []⟩ : InheritanceGraph).direct_parents))
      = ((us.map unitParentOps).flatten).map Prod.fst := by
    apply List.filter_eq_self.mpr
    intro a _
    simp [dictKeys]
  show dictKeys ([] : List (String × List String))
      ++ dedupF ((((us.map unitParentOps).flatten).map Prod.fst).filter
        (fun x => x ∉ dictKeys ([] : List (String × List String)))) = _
  have hfil2 : (((us.map unitParentOps).flatten).map Prod.fst).filter
      (fun x => x ∉ dictKeys ([] : List (String × List String)))
      = ((us.map unitParentOps).flatten).map Prod.fst := by
    apply List.filter_eq_self.mpr
    intro a _
    simp [dictKeys]
  rw [hfil2]
  show dedupF (((us.map unitParentOps).flatten).map Prod.fst) = _
  rw [List.map_flatten, List.map_map]
  have : (us.map (List.map Prod.fst ∘ unitParentOps)) = us.map unitNames := by
    apply List.map_congr_left
    intro u _
    rfl
  rw [this]

theorem unit_mod_lookup {us : List SourceUnit}
    (hnames : List.Pairwise (fun u v => ∀ n, n ∈ unitNames u → n ∉ unitNames v) us)
    {u : SourceUnit} {n : String} (hu : u ∈ us) (hn : n ∈ unitNames u) :
    dictGet (runGraph us).class_modules n = some u.path := by
  rw [run_cm_lookup]
  rw [opsLookup_flatten_of_unique (List.mem_map_of_mem unitModOps hu)
    (by rw [unitModOps_keys]; exact hn) (modOps_blocks_disjoint us hnames)]
  unfold unitModOps
  rw [opsLookup_map_const, if_pos hn]

theorem run_keys_filter_canonical (us : List SourceUnit)
    (hnames : List.Pairwise (fun u v => ∀ n, n ∈ unitNames u → n ∉ unitNames v) us)
    (m : String) :
    (dictKeys (runGraph us).direct_parents).filter
        (fun q => dictGet (runGraph us).class_modules q = some m)
      = dedupF ((us.map (fun u => if u.path = m then unitNames u else [])).flatten) := by
  rw [run_keys_eq_dedup, filter_dedupF, List.filter_flatten, List.map_map]
  apply congrArg
  apply congrArg
  apply List.map_congr_left
  intro u hu
  show (unitNames u).filter (fun q => dictGet (runGraph us).class_modules q = some m) = _
  by_cases hpm : u.path = m
  · rw [if_pos hpm]
    apply List.filter_eq_self.mpr
    intro n hn
    rw [unit_mod_lookup hnames hu hn]
    simp [hpm]
  · rw [if_neg hpm]
    apply List.filter_eq_nil_iff.mpr
    intro n hn
    rw [unit_mod_lookup hnames hu hn]
    simp [hpm]

theorem run_keys_filter_inv (us₁ us₂ : List SourceUnit) (hperm : us₁.Perm us₂)
    (hnames : List.Pairwise (fun u v => ∀ n, n ∈ unitNames u → n ∉ unitNames v) us₁)
    (hpaths : (us₁.map SourceUnit.path).Nodup) (m : String) :
    (dictKeys (runGraph us₁).direct_parents).filter
        (fun q => dictGet (runGraph us₁).class_modules q = some m)
      = (dictKeys (runGraph us₂).direct_parents).filter
        (fun q => dictGet (runGraph us₂).class_modules q = some m) := by
  have hsymm : ∀ {u v : SourceUnit},
      (∀ n, n ∈ unitNames u → n ∉ unitNames v) →
        (∀ n, n ∈ unitNames v → n ∉ unitNames u) :=
    fun {u v} huv n hnv hnu => huv n hnu hnv
  have hnames₂ := (hperm.pairwise_iff hsymm).mp hnames
  rw [run_keys_filter_canonical us₁ hnames m, run_keys_filter_canonical us₂ hnames₂ m]
  apply congrArg
  apply flatten_eq_of_single_nonempty
    (hperm.map (fun u => if u.path = m then unitNames u else []))
  have hp : List.Pairwise (fun u v => u.path ≠ v.path) us₁ := List.pairwise_map.mp hpaths
  rw [List.pairwise_map]
  refine hp.imp ?_
  intro u v huv
  by_cases hum : u.path = m
  · right
    rw [if_neg (fun hvm => huv (hum.trans hvm.symm))]
  · left
    rw [if_neg hum]

theorem run_pairs_filter_inv (us₁ us₂ : List SourceUnit) (fuel : Nat)
    (pairs₁ pairs₂ : List (String × String)) (hperm : us₁.Perm us₂)
    (hnames : List.Pairwise (fun u v => ∀ n, n ∈ unitNames u → n ∉ unitNames v) us₁)
    (hpaths : (us₁.map SourceUnit.path).Nodup)
    (hap₁ : get_all_pairs (runGraph us₁) fuel = some pairs₁)
    (hap₂ : get_all_pairs (runGraph us₂) fuel = some pairs₂)
    (k : String × String) :
    pairs₁.filter (fun p => pairKey (runGraph us₁) p = some k)
      = pairs₂.filter (fun p => pairKey (runGraph us₂) p = some k) := by
  obtain ⟨hdp, hcm, _⟩ := run_lookups_perm us₁ us₂ hperm hnames hpaths
  have hemit : ∀ c pp, emitInGroup (runGraph us₁) fuel k c pp
      = emitInGroup (runGraph us₂) fuel k c pp := by
    intro c pp
    unfold emitInGroup
    rw [pairEmit_congr hdp]
    cases hpe : pairEmit (runGraph us₂) fuel c pp with
    | none => rfl
    | some pr =>
      rw [Option.some_bind, Option.some_bind, pairKey_congr hcm]
  rw [pairs_filter_eq_canonical hap₁ k, pairs_filter_eq_canonical hap₂ k]
  rw [run_keys_filter_inv us₁ us₂ hperm hnames hpaths k.2,
    run_keys_filter_inv us₁ us₂ hperm hnames hpaths k.1]
  apply congrArg
  apply List.map_congr_left
  intro c _
  exact filterMap_congr_fn _ _ _ (fun pp _ => hemit c pp)

/-- C5: for units with no fully-qualified-name collisions across units
(and distinct unit paths), two runs that process the same units in
different orders and both complete write exactly the same report files
(same names, same contents). -/
theorem claim_C5_reports_order_independent (us₁ us₂ : List SourceUnit) (fuel : Nat)
    (out₁ out₂ : List (String × String)) (hperm : us₁.Perm us₂)
    (hnames : List.Pairwise (fun u v => ∀ n, n ∈ unitNames u → n ∉ unitNames v) us₁)
    (hpaths : (us₁.map SourceUnit.path).Nodup)
    (h₁ : write_class_pairs (runGraph us₁) fuel = some out₁)
    (h₂ : write_class_pairs (runGraph us₂) fuel = some out₂) :
    ∀ x, x ∈ out₁ ↔ x ∈ out₂ := by
  unfold write_class_pairs at h₁ h₂
  cases hap₁ : get_all_pairs (runGraph us₁) fuel with
  | none => rw [hap₁] at h₁; exact absurd h₁ (by simp)
  | some pairs₁ =>
  cases hap₂ : get_all_pairs (runGraph us₂) fuel with
  | none => rw [hap₂] at h₂; exact absurd h₂ (by simp)
  | some pairs₂ =>
  rw [hap₁] at h₁
  rw [hap₂] at h₂
  replace h₁ : (match group_pairs (runGraph us₁) pairs₁ with
    | none => none
    | some groups => writeGroups (runGraph us₁) groups) = some out₁ := h₁
  replace h₂ : (match group_pairs (runGraph us₂) pairs₂ with
    | none => none
    | some groups => writeGroups (runGraph us₂) groups) = some out₂ := h₂
  cases hgp₁ : group_pairs (runGraph us₁) pairs₁ with
  | none => rw [hgp₁] at h₁; exact absurd h₁ (by simp)
  | some groups₁ =>
  cases hgp₂ : group_pairs (runGraph us₂) pairs₂ with
  | none => rw [hgp₂] at h₂; exact absurd h₂ (by simp)
  | some groups₂ =>
  rw [hgp₁] at h₁
  rw [hgp₂] at h₂
  replace h₁ : writeGroups (runGraph us₁) groups₁ = some out₁ := h₁
  replace h₂ : writeGroups (runGraph us₂) groups₂ = some out₂ := h₂
  obtain ⟨hdp, hcm, hmc⟩ := run_lookups_perm us₁ us₂ hperm hnames hpaths
  have hfil : ∀ k, pairs₁.filter (fun p => pairKey (runGraph us₁) p = some k)
      = pairs₂.filter (fun p => pairKey (runGraph us₂) p = some k) :=
    run_pairs_filter_inv us₁ us₂ fuel pairs₁ pairs₂ hperm hnames hpaths hap₁ hap₂
  have hrend : ∀ mA mD l, render_report (runGraph us₁) mA mD l
      = render_report (runGraph us₂) mA mD l :=
    fun mA mD l => render_report_congr hcm hmc (run_cm_keys_nodup us₁) (run_cm_keys_nodup us₂)
      mA mD l
  intro x
  obtain ⟨fname, content⟩ := x
  rw [writeGroups_mem h₁ fname content, writeGroups_mem h₂ fname content]
  constructor
  · rintro ⟨mA, mD, first, rest', hmem, hr, hfn⟩
    obtain ⟨hlist, hne⟩ := (group_pairs_entry_iff hgp₁ (mA, mD) _).mp hmem
    refine ⟨mA, mD, first, rest', ?_, ?_, hfn⟩
    · apply (group_pairs_entry_iff hgp₂ (mA, mD) _).mpr
      exact ⟨hlist.trans (hfil (mA, mD)), hne⟩
    · rw [← hrend]
      exact hr
  · rintro ⟨mA, mD, first, rest', hmem, hr, hfn⟩
    obtain ⟨hlist, hne⟩ := (group_pairs_entry_iff hgp₂ (mA, mD) _).mp hmem
    refine ⟨mA, mD, first, rest', ?_, ?_, hfn⟩
    · apply (group_pairs_entry_iff hgp₁ (mA, mD) _).mpr
      exact ⟨hlist.trans (hfil (mA, mD)).symm, hne⟩
    · rw [hrend]
      exact hr

theorem claim_C5_reports_order_independent_witness :
    [unitBaseA, unitSubB].Perm [unitSubB, unitBaseA]
    ∧ List.Pairwise (fun u v => ∀ n, n ∈ unitNames u → n ∉ unitNames v) [unitBaseA, unitSubB]
    ∧ ([unitBaseA, unitSubB].map SourceUnit.path).Nodup
    ∧ write_class_pairs (runGraph [unitBaseA, unitSubB]) 5
        = some ((write_class_pairs (runGraph [unitBaseA, unitSubB]) 5).getD [])
    ∧ write_class_pairs (runGraph [unitSubB, unitBaseA]) 5
        = some ((write_class_pairs (runGraph [unitSubB, unitBaseA]) 5).getD [])
    ∧ ∀ x, x ∈ (write_class_pairs (runGraph [unitBaseA, unitSubB]) 5).getD []
        ↔ x ∈ (write_class_pairs (runGraph [unitSubB, unitBaseA]) 5).getD [] :=
  ⟨List.Perm.swap unitSubB unitBaseA [], by decide, by decide, rfl, rfl,
   claim_C5_reports_order_independent [unitBaseA, unitSubB] [unitSubB, unitBaseA] 5 _ _
     (List.Perm.swap unitSubB unitBaseA []) (by decide) (by decide) rfl rfl⟩
